import Mathlib

/-!
Verification development for the BFC Brainfuck compiler (`bfc.py`).

The compiler is embedded shallowly: Python byte strings become `List Nat`
(each entry a byte value), `chr` and `struct.pack` become `Option`-valued
functions that fail exactly where the Python calls raise, and the
`Lexer` / `Parser` / `Optimizer` / `CodeGenerator` / `Linker` classes become
pure functions over an inductive AST.  The in-place mutation that
`Optimizer.optimize` performs on nodes shared with its input tree is modelled
by a separate function computing the post-call value of the input tree.
-/

namespace BFC

/-! ### Tokens (`Lexer` and the token classes) -/

inductive Token where
  | incPtr | decPtr | incByte | decByte | output | input | loopStart | loopEnd
deriving DecidableEq, Repr

/-- `Token.__repr__` returns the Python class name; `str(tok)` falls back to it. -/
def tokenName : Token → String
  | .incPtr => "IncPtrToken"
  | .decPtr => "DecPtrToken"
  | .incByte => "IncByteToken"
  | .decByte => "DecByteToken"
  | .output => "OutputToken"
  | .input => "InputToken"
  | .loopStart => "LoopStartToken"
  | .loopEnd => "LoopEndToken"

/-- One step of `Lexer.tokenize`: the eight command characters map to tokens,
every other character is discarded as a comment. -/
def tokenizeChar : Char → Option Token
  | '>' => some .incPtr
  | '<' => some .decPtr
  | '+' => some .incByte
  | '-' => some .decByte
  | '.' => some .output
  | ',' => some .input
  | '[' => some .loopStart
  | ']' => some .loopEnd
  | _ => none

/-- `Lexer(source).tokenize()`. -/
def tokenize (source : List Char) : List Token :=
  source.filterMap tokenizeChar

/-! ### AST nodes -/

/-- The AST node hierarchy.  The four mergeable node classes carry the
repetition `count` (default 1 in the source); `Loop` and `Program` carry
their ordered child list. -/
inductive Node where
  | incPtr (count : Nat)
  | decPtr (count : Nat)
  | incByte (count : Nat)
  | decByte (count : Nat)
  | output
  | input
  | loop (nodes : List Node)
  | program (nodes : List Node)
deriving Repr

/-- The four mergeable classes, used to model `isinstance` / `__eq__` checks. -/
inductive MKind where
  | ip | dp | ib | db
deriving DecidableEq, Repr

/-- `isinstance(n, MergeableNode)` together with the concrete class of `n`. -/
def Node.mergeKind : Node → Option MKind
  | .incPtr _ => some .ip
  | .decPtr _ => some .dp
  | .incByte _ => some .ib
  | .decByte _ => some .db
  | _ => none

/-- The `count` attribute (only meaningful on mergeable nodes). -/
def Node.countOf : Node → Nat
  | .incPtr c => c
  | .decPtr c => c
  | .incByte c => c
  | .decByte c => c
  | _ => 0

/-- Build a mergeable node of a given class and count. -/
def mkM : MKind → Nat → Node
  | .ip, c => .incPtr c
  | .dp, c => .decPtr c
  | .ib, c => .incByte c
  | .db, c => .decByte c

/-! ### Parser

`Parser` keeps an index into the token list; we embed it as functions that
consume a prefix of the list and return the unread remainder.  Recursion in
`parse_loop` is not structural on the token list, so the embedding uses a
fuel parameter; `parse` supplies fuel that provably suffices (the adequacy
is part of the classification theorem below), so the `"out of fuel"` branch
is unreachable from `parse`. -/

/-- `Parser.parse_command`: one non-loop token to an AST node, each mergeable
node created with the default `count = 1`. -/
def parseCommand : Token → Except String Node
  | .incPtr => .ok (.incPtr 1)
  | .decPtr => .ok (.decPtr 1)
  | .incByte => .ok (.incByte 1)
  | .decByte => .ok (.decByte 1)
  | .output => .ok Node.output
  | .input => .ok Node.input
  | t => .error ("unexpected token " ++ tokenName t)

mutual

/-- `Parser.parse_loop`: `expect(LoopStartToken)`, the body, `expect(LoopEndToken)`. -/
def parseLoopF : Nat → List Token → Except String (Node × List Token)
  | 0, _ => .error "out of fuel"
  | _ + 1, [] => .error "unexpected end of file"
  | f + 1, t :: rest =>
    if t = .loopStart then
      match parseBodyF f rest with
      | .error e => .error e
      | .ok (ns, rest₁) =>
        match rest₁ with
        | [] => .error "unexpected end of file"
        | u :: rest₂ =>
          if u = .loopEnd then .ok (.loop ns, rest₂)
          else .error ("unexpected token " ++ tokenName u)
    else .error ("unexpected token " ++ tokenName t)

/-- The `while not isinstance(self.peek(), LoopEndToken)` loop inside
`parse_loop`: parse commands and nested loops, stopping (without consuming)
at the closing `LoopEndToken`; `peek` at end of input raises. -/
def parseBodyF : Nat → List Token → Except String (List Node × List Token)
  | 0, _ => .error "out of fuel"
  | _ + 1, [] => .error "unexpected end of file"
  | f + 1, t :: rest =>
    if t = .loopEnd then .ok ([], t :: rest)
    else if t = .loopStart then
      match parseLoopF f (t :: rest) with
      | .error e => .error e
      | .ok (n, rest₁) =>
        match parseBodyF f rest₁ with
        | .error e => .error e
        | .ok (ns, rest₂) => .ok (n :: ns, rest₂)
    else
      match parseCommand t with
      | .error e => .error e
      | .ok n =>
        match parseBodyF f rest with
        | .error e => .error e
        | .ok (ns, rest₁) => .ok (n :: ns, rest₁)

end

/-- `Parser.parse_program`: commands and loops until end of input. -/
def parseProgramF : Nat → List Token → Except String (List Node)
  | 0, _ => .error "out of fuel"
  | _ + 1, [] => .ok []
  | f + 1, t :: rest =>
    if t = .loopStart then
      match parseLoopF f (t :: rest) with
      | .error e => .error e
      | .ok (n, rest₁) => (parseProgramF f rest₁).map (n :: ·)
    else
      match parseCommand t with
      | .error e => .error e
      | .ok n => (parseProgramF f rest).map (n :: ·)

/-- `Parser(tokens).parse()`. -/
def parse (ts : List Token) : Except String Node :=
  (parseProgramF (2 * ts.length + 1) ts).map .program

/-! ### Optimizer -/

/-- The merge test of `Optimizer.optimize`:
`isinstance(n, MergeableNode) and n == last_node and last_node.count < 255`,
where `MergeableNode.__eq__` checks `isinstance(other, self.__class__)`. -/
def mergeCond (n last : Node) : Bool :=
  match n.mergeKind, last.mergeKind with
  | some k1, some k2 => k1 = k2 && last.countOf < 255
  | _, _ => false

/-- `last_node.count += 1` on a mergeable node. -/
def bump : Node → Node
  | .incPtr c => .incPtr (c + 1)
  | .decPtr c => .decPtr (c + 1)
  | .incByte c => .incByte (c + 1)
  | .decByte c => .decByte (c + 1)
  | n => n

/-- One iteration of the merge loop, on the reversed output list
(`acc.head?` is the Python `last_node`, which is always the last element of
`nodes`; an empty accumulator corresponds to `last_node = None`). -/
def mergeStep (acc : List Node) (n : Node) : List Node :=
  match acc with
  | [] => [n]
  | last :: rest => if mergeCond n last then bump last :: rest else n :: acc

mutual

/-- `Optimizer(tree).optimize()`, as the value of the returned tree. -/
def optimize : Node → Node
  | .program ns => .program (optList ns)
  | .loop ns => .loop (optList ns)
  | n => n
termination_by n => (sizeOf n, 0)
decreasing_by all_goals simp_wf <;> omega

/-- The body of the `ProgramNode` / `LoopNode` branch of `optimize`. -/
def optList (ns : List Node) : List Node :=
  (optFoldAux ns []).reverse
termination_by (sizeOf ns, 2)
decreasing_by all_goals simp_wf <;> omega

/-- The `for n in node.nodes` loop: optimize each child, then merge it into
the accumulated (reversed) output list. -/
def optFoldAux : List Node → List Node → List Node
  | [], acc => acc
  | n :: rest, acc => optFoldAux rest (mergeStep acc (optimize n))
termination_by ns _ => (sizeOf ns, 1)
decreasing_by all_goals simp_wf <;> omega

end

/-! ### The post-call value of the optimizer's input tree

`optimize` returns fresh `Program` / `Loop` wrappers but shares all leaf
nodes with its input, and `last_node.count += 1` mutates shared mergeable
nodes in place, so the input tree can change. -/

mutual

/-- The value of the input tree after `Optimizer(tree).optimize()` returns:
`last_node.count += 1` mutates, in place, each mergeable node that heads a
merged run (one increment per absorbed following same-class sibling,
stopping at count 255 or at the first sibling not of the same class). -/
def inputAfter : Node → Node
  | .program ns => .program (childrenAfter ns)
  | .loop ns => .loop (childrenAfter ns)
  | .incPtr c => .incPtr c
  | .decPtr c => .decPtr c
  | .incByte c => .incByte c
  | .decByte c => .decByte c
  | .output => .output
  | .input => .input
termination_by n => (sizeOf n, 0)
decreasing_by all_goals simp_wf <;> omega

/-- Post-call value of one child list of the input tree. -/
def childrenAfter : List Node → List Node
  | [] => []
  | n :: rest =>
    match n.mergeKind with
    | some c => (runAfter c n.countOf rest).1 :: (runAfter c n.countOf rest).2
    | none => inputAfter n :: childrenAfter rest
termination_by ns => (sizeOf ns, 1)
decreasing_by all_goals simp_wf <;> omega

/-- Run headed by a shared mergeable leader of class `c`, current count `v`:
while the next sibling is of the same class and the leader's count is below
255, the leader's count is incremented and the absorbed sibling is left
unchanged; otherwise the leader is final and scanning restarts. -/
def runAfter (c : MKind) (v : Nat) : List Node → Node × List Node
  | [] => (mkM c v, [])
  | b :: rest =>
    if b.mergeKind = some c ∧ v < 255 then
      ((runAfter c (v + 1) rest).1, b :: (runAfter c (v + 1) rest).2)
    else (mkM c v, childrenAfter (b :: rest))
termination_by ns => (sizeOf ns, 2)
decreasing_by all_goals simp_wf <;> omega

end

mutual

/-- No two adjacent siblings anywhere in the tree are mergeable nodes of the
same class (so the optimizer's merge branch is never taken). -/
def noAdjSame : Node → Bool
  | .program ns => noAdjSameL ns
  | .loop ns => noAdjSameL ns
  | .incPtr _ => true
  | .decPtr _ => true
  | .incByte _ => true
  | .decByte _ => true
  | .output => true
  | .input => true
termination_by n => (sizeOf n, 0)
decreasing_by all_goals simp_wf <;> omega

def noAdjSameL : List Node → Bool
  | [] => true
  | [n] => noAdjSame n
  | a :: b :: rest =>
    (match a.mergeKind, b.mergeKind with
     | some k1, some k2 => decide (k1 ≠ k2)
     | _, _ => true) && noAdjSame a && noAdjSameL (b :: rest)
termination_by ns => (sizeOf ns, 1)
decreasing_by all_goals simp_wf <;> omega

end

/-! ### Code generator -/

def MOV_REG_IMM : Nat := 0xB8
def MOV_REG_REG : Nat := 0x89
def XOR : Nat := 0x31
def ADDSUB : Nat := 0x83
def INC : Nat := 0x40
def DEC : Nat := 0x48
def INT : Nat := 0xCD
def STD_OP : Nat := 0xFD
def REP : Nat := 0xF3
def STOSD : Nat := 0xAB
def JMP : Nat := 0xE9
/-- `JE = '\x0F\x84'`, a two-byte literal. -/
def JE : List Nat := [0x0F, 0x84]

def MOD_RR : Nat := 0b11

def EAX : Nat := 0b000
def ECX : Nat := 0b001
def EDX : Nat := 0b010
def EBX : Nat := 0b011
def ESP : Nat := 0b100
def EBP : Nat := 0b101
def ESI : Nat := 0b110
def EDI : Nat := 0b111

def SYSCALL : Nat := 0x80

/-- Python 2 `chr(n)`: a one-byte string, raising `ValueError` for `n ≥ 256`. -/
def chrB (n : Nat) : Option (List Nat) :=
  if n < 256 then some [n] else none

/-- Little-endian bytes of an unsigned 32-bit value. -/
def u32le (v : Nat) : List Nat :=
  [v % 256, v / 256 % 256, v / 2 ^ 16 % 256, v / 2 ^ 24 % 256]

/-- Little-endian bytes of a signed 32-bit value (two's complement). -/
def i32le (v : Int) : List Nat :=
  u32le (v % (2 ^ 32 : Int)).toNat

/-- `struct.pack('<I', v)`: raises unless `0 ≤ v < 2^32`. -/
def pack_u32 (v : Nat) : Option (List Nat) :=
  if v < 2 ^ 32 then some (u32le v) else none

/-- `struct.pack('<i', v)`: raises unless `-2^31 ≤ v < 2^31`. -/
def pack_i32 (v : Int) : Option (List Nat) :=
  if -(2 ^ 31) ≤ v ∧ v < 2 ^ 31 then some (i32le v) else none

def mov_ri (dst : Nat) (val : Nat) : Option (List Nat) := do
  return (← chrB (MOV_REG_IMM + dst)) ++ (← pack_u32 val)

def mov_rr (dst src : Nat) : Option (List Nat) := do
  return (← chrB MOV_REG_REG) ++ (← chrB (dst ||| src <<< 3 ||| MOD_RR <<< 6))

def xor (dst src : Nat) : Option (List Nat) := do
  return (← chrB XOR) ++ (← chrB (dst ||| src <<< 3 ||| MOD_RR <<< 6))

def add_reg (dst val : Nat) : Option (List Nat) := do
  return (← chrB ADDSUB) ++ (← chrB (dst ||| MOD_RR <<< 6)) ++ (← chrB val)

def sub_reg (dst val : Nat) : Option (List Nat) := do
  return (← chrB ADDSUB) ++ (← chrB (dst ||| 5 <<< 3 ||| MOD_RR <<< 6)) ++ (← chrB val)

def add_esp_byte (val : Nat) : Option (List Nat) := do
  return [0x80, 0x04, 0x24] ++ (← chrB val)

def sub_esp_byte (val : Nat) : Option (List Nat) := do
  return [0x80, 0x2C, 0x24] ++ (← chrB val)

def inc_reg (reg : Nat) : Option (List Nat) :=
  chrB (INC + reg)

def dec_reg (reg : Nat) : Option (List Nat) :=
  chrB (DEC + reg)

def inc_esp_byte : List Nat := [0xFE, 0x04, 0x24]

def dec_esp_byte : List Nat := [0xFE, 0x0C, 0x24]

def cmp_esp_byte (val : Nat) : Option (List Nat) := do
  return [0x80, 0x3C, 0x24] ++ (← chrB val)

def jmp (rel : Int) : Option (List Nat) := do
  return (← chrB JMP) ++ (← pack_i32 rel)

def je (rel : Int) : Option (List Nat) := do
  return JE ++ (← pack_i32 rel)

def int (name : Nat) : Option (List Nat) := do
  return (← chrB INT) ++ (← chrB name)

def std : Option (List Nat) := chrB STD_OP

def rep_stos : Option (List Nat) := do
  return (← chrB REP) ++ (← chrB STOSD)

mutual

/-- `CodeGenerator(tree).generate(node)`; `none` models an uncaught
`ValueError` / `struct.error` from `chr` or `struct.pack`. -/
def generate : Node → Option (List Nat)
  | .program ns => do
    let pro := (← xor EAX EAX) ++ (← mov_ri ECX 0x40000) ++ (← mov_rr EDI ESP)
      ++ (← std) ++ (← rep_stos)
    let body ← genList ns
    let epi := (← xor EAX EAX) ++ (← inc_reg EAX) ++ (← xor EBX EBX) ++ (← int SYSCALL)
    return pro ++ body ++ epi
  | .loop ns => do
    let body ← genList ns
    return (← cmp_esp_byte 0) ++ (← je ((body.length : Int) + 5)) ++ body
      ++ (← jmp (-(body.length : Int) - 15))
  | .incPtr c => if c = 1 then dec_reg ESP else sub_reg ESP c
  | .decPtr c => if c = 1 then inc_reg ESP else add_reg ESP c
  | .incByte c => if c = 1 then some inc_esp_byte else add_esp_byte c
  | .decByte c => if c = 1 then some dec_esp_byte else sub_esp_byte c
  | .output => do
    return (← mov_ri EAX 0x4) ++ (← mov_ri EBX 0x1) ++ (← mov_rr ECX ESP)
      ++ (← mov_ri EDX 0x1) ++ (← int SYSCALL)
  | .input => do
    return (← mov_ri EAX 0x3) ++ (← mov_ri EBX 0x0) ++ (← mov_rr ECX ESP)
      ++ (← mov_ri EDX 0x1) ++ (← int SYSCALL)
termination_by n => (sizeOf n, 0)
decreasing_by all_goals simp_wf <;> omega

/-- `for node in node.nodes: code += self.generate(node)`. -/
def genList : List Node → Option (List Nat)
  | [] => some []
  | n :: rest => do
    return (← generate n) ++ (← genList rest)
termination_by ns => (sizeOf ns, 1)
decreasing_by all_goals simp_wf <;> omega

end

/-! ### Linker -/

def ELF_HDR_SIZE : Nat := 52
def PRO_HDR_SIZE : Nat := 32
def LOAD_ADDRESS : Nat := 0x08048000

/-- `struct.pack('<H', v)`: raises unless `0 ≤ v < 2^16`. -/
def pack_u16 (v : Nat) : Option (List Nat) :=
  if v < 2 ^ 16 then some [v % 256, v / 256] else none

/-- `Linker.write_header`: the 52 ELF header bytes, in write order. -/
def write_header : Option (List Nat) := do
  let entry_point := LOAD_ADDRESS + ELF_HDR_SIZE + PRO_HDR_SIZE
  return [0x7F, 0x45, 0x4C, 0x46]
    ++ [0x01]                     -- 32-bit
    ++ [0x01]                     -- little-endian
    ++ [0x00]                     -- written for the e_ident version field
    ++ [0x00]                     -- System V ABI
    ++ [0x00]
    ++ List.replicate 7 0x00      -- padding to 16 bytes
    ++ (← pack_u16 2)             -- e_type
    ++ (← pack_u16 3)             -- e_machine
    ++ (← pack_u32 1)             -- e_version
    ++ (← pack_u32 entry_point)   -- e_entry
    ++ (← pack_u32 ELF_HDR_SIZE)  -- e_phoff
    ++ (← pack_u32 0)             -- e_shoff
    ++ (← pack_u32 0)             -- e_flags
    ++ (← pack_u16 ELF_HDR_SIZE)  -- e_ehsize
    ++ (← pack_u16 PRO_HDR_SIZE)  -- e_phentsize
    ++ (← pack_u16 1)             -- e_phnum
    ++ (← pack_u16 0)             -- e_shentsize
    ++ (← pack_u16 0)             -- e_shnum
    ++ (← pack_u16 0)             -- e_shstrndx

/-- `Linker.write_program_header`, parametrised by `len(self.code)`. -/
def write_program_header (codeLen : Nat) : Option (List Nat) := do
  let file_size := ELF_HDR_SIZE + PRO_HDR_SIZE + codeLen
  return (← pack_u32 1) ++ (← pack_u32 0) ++ (← pack_u32 LOAD_ADDRESS)
    ++ (← pack_u32 LOAD_ADDRESS) ++ (← pack_u32 file_size) ++ (← pack_u32 file_size)
    ++ (← pack_u32 (0x1 ||| 0x4)) ++ (← pack_u32 0x1000)

/-- `Linker(selfCode).write(...)`, as the byte sequence written to the file.
The method writes the header and program header from `self.code`, but the
payload line is `f.write(code)` with an *unqualified* `code`, so the bytes
written after the 84-byte prelude are whatever the enclosing module's global
`code` variable holds (`globalCode`), not `self.code`. -/
def linker_write (selfCode globalCode : List Nat) : Option (List Nat) := do
  return (← write_header) ++ (← write_program_header selfCode.length) ++ globalCode

/-! ### Main program -/

/-- Observable outcome of running `bfc.py`: exit status, text written to
stderr, and the output file (path and bytes) if one was written. -/
structure MainResult where
  exitCode : Nat
  stderrText : String
  outFile : Option (String × List Nat)
deriving DecidableEq, Repr

/-- `os.path.splitext(path)[0]`: strip the extension, where the extension
starts at the last `'.'` of the final path component provided some non-dot
character of that component precedes it. -/
def splitextRoot (s : String) : String :=
  let cs := s.data
  let rev := cs.reverse
  let rbase := rev.takeWhile (fun c => c ≠ '/')
  let base := rbase.reverse
  let leadingDots := (base.takeWhile (fun c => c = '.')).length
  let rafter := rbase.takeWhile (fun c => c ≠ '.')
  if rafter.length < rbase.length then
    -- a dot exists in the final component; its index in `base`:
    let dotIdx := base.length - 1 - rafter.length
    if leadingDots ≤ dotIdx then String.mk (cs.take (cs.length - 1 - rafter.length)) else s
  else s

/-- The `__main__` block: argument check, input reading, and the
lex/parse/optimize/generate/link pipeline.  `fs` models the readable files;
`none` as the overall result models an uncaught Python exception. -/
def mainRun (argv : List String) (fs : String → Option String) : Option MainResult :=
  match argv with
  | [_, path] =>
    match fs path with
    | none => some ⟨1, "err: could not read input file\n", none⟩
    | some source =>
      match parse (tokenize source.data) with
      | .error e => some ⟨1, "err: " ++ e ++ "\n", none⟩
      | .ok tree =>
        match generate (optimize tree) with
        | none => none
        | some code =>
          match linker_write code code with
          | none => none
          | some bytes => some ⟨0, "", some (splitextRoot path, bytes)⟩
  | _ => some ⟨1, "usage: bfc.py <program.bf>\n", none⟩

/-! ### Spec-side definitions for the parser claims -/

/-- Number of `[` tokens. -/
def opensCount : List Token → Nat
  | [] => 0
  | .loopStart :: r => opensCount r + 1
  | _ :: r => opensCount r

/-- Number of `]` tokens. -/
def closesCount : List Token → Nat
  | [] => 0
  | .loopEnd :: r => closesCount r + 1
  | _ :: r => closesCount r

/-- Starting from `d` already-open loops, no prefix closes more brackets
than are open: `]` never appears without a matching `[`. -/
def prefixOK (ts : List Token) (d : Nat) : Prop :=
  ∀ i, closesCount (ts.take i) ≤ d + opensCount (ts.take i)

/-- Reference bracket scanner: the outcome (success, which parse error) of
scanning the token list with `d` currently open loops. -/
def scanB : List Token → Nat → Except String Unit
  | [], d => if d = 0 then .ok () else .error "unexpected end of file"
  | .loopStart :: r, d => scanB r (d + 1)
  | .loopEnd :: r, d =>
    match d with
    | 0 => .error "unexpected token LoopEndToken"
    | d + 1 => scanB r d
  | _ :: r, d => scanB r d

/-! ### Spec-side definitions for the optimizer claims -/

/-- Modelled from the spec: a maximal run of `k` adjacent identical single
commands becomes nodes with counts `255, 255, …, remainder` (leftmost
greedy). -/
def chunksOf (c : MKind) (k : Nat) : List Node :=
  List.replicate (k / 255) (mkM c 255)
    ++ (if k % 255 = 0 then [] else [mkM c (k % 255)])

/-- The chunk list produced when a run leader currently holding count `v`
greedily absorbs `j` further single commands, capping each node at 255. -/
def chunksFrom (c : MKind) (v j : Nat) : List Node :=
  if j ≤ 255 - v then [mkM c (v + j)]
  else mkM c 255 :: chunksFrom c 1 (j - (255 - v) - 1)
termination_by j
decreasing_by simp_wf; omega

mutual

/-- Modelled from the spec: run-length encoding of a tree of single
commands — every maximal run of `k` adjacent same-variant mergeable nodes
becomes `chunksOf` that run, non-mergeable nodes are boundaries, and loop
bodies are encoded recursively. -/
def rleTree : Node → Node
  | .program ns => .program (rleList ns)
  | .loop ns => .loop (rleList ns)
  | .incPtr c => .incPtr c
  | .decPtr c => .decPtr c
  | .incByte c => .incByte c
  | .decByte c => .decByte c
  | .output => .output
  | .input => .input
termination_by n => (sizeOf n, 0)
decreasing_by all_goals simp_wf <;> omega

def rleList : List Node → List Node
  | [] => []
  | n :: rest =>
    match n.mergeKind with
    | some c => rleRun c 1 rest
    | none => rleTree n :: rleList rest
termination_by ns => (sizeOf ns, 1)
decreasing_by all_goals simp_wf <;> omega

/-- Collect the maximal run of class `c` (already `k` commands long) and
emit its chunks. -/
def rleRun (c : MKind) (k : Nat) : List Node → List Node
  | [] => chunksOf c k
  | b :: rest =>
    if b.mergeKind = some c then rleRun c (k + 1) rest
    else chunksOf c k ++ rleList (b :: rest)
termination_by ns => (sizeOf ns, 2)
decreasing_by all_goals simp_wf <;> omega

end

mutual

/-- Every mergeable node of the tree has count exactly 1 (the invariant of
parser output). -/
def countsOne : Node → Bool
  | .program ns => countsOneL ns
  | .loop ns => countsOneL ns
  | .incPtr c => decide (c = 1)
  | .decPtr c => decide (c = 1)
  | .incByte c => decide (c = 1)
  | .decByte c => decide (c = 1)
  | .output => true
  | .input => true
termination_by n => (sizeOf n, 0)
decreasing_by all_goals simp_wf <;> omega

def countsOneL : List Node → Bool
  | [] => true
  | n :: rest => countsOne n && countsOneL rest
termination_by ns => (sizeOf ns, 1)
decreasing_by all_goals simp_wf <;> omega

end

mutual

/-- Every mergeable node of the tree has positive count. -/
def countsPos : Node → Bool
  | .program ns => countsPosL ns
  | .loop ns => countsPosL ns
  | .incPtr c => decide (1 ≤ c)
  | .decPtr c => decide (1 ≤ c)
  | .incByte c => decide (1 ≤ c)
  | .decByte c => decide (1 ≤ c)
  | .output => true
  | .input => true
termination_by n => (sizeOf n, 0)
decreasing_by all_goals simp_wf <;> omega

def countsPosL : List Node → Bool
  | [] => true
  | n :: rest => countsPos n && countsPosL rest
termination_by ns => (sizeOf ns, 1)
decreasing_by all_goals simp_wf <;> omega

end

mutual

/-- Every mergeable node of the tree has count in `1..=255`. -/
def countsInRange : Node → Bool
  | .program ns => countsInRangeL ns
  | .loop ns => countsInRangeL ns
  | .incPtr c => decide (1 ≤ c ∧ c ≤ 255)
  | .decPtr c => decide (1 ≤ c ∧ c ≤ 255)
  | .incByte c => decide (1 ≤ c ∧ c ≤ 255)
  | .decByte c => decide (1 ≤ c ∧ c ≤ 255)
  | .output => true
  | .input => true
termination_by n => (sizeOf n, 0)
decreasing_by all_goals simp_wf <;> omega

def countsInRangeL : List Node → Bool
  | [] => true
  | n :: rest => countsInRange n && countsInRangeL rest
termination_by ns => (sizeOf ns, 1)
decreasing_by all_goals simp_wf <;> omega

end

/-- Maximality check for one adjacent sibling pair: not two mergeable nodes
of the same class whose counts sum to at most 255. -/
def pairOK (a b : Node) : Bool :=
  match a.mergeKind, b.mergeKind with
  | some k1, some k2 => !(decide (k1 = k2) && decide (a.countOf + b.countOf ≤ 255))
  | _, _ => true

mutual

/-- No two adjacent siblings in any body of the tree violate `pairOK`. -/
def adjOK : Node → Bool
  | .program ns => adjListOK ns
  | .loop ns => adjListOK ns
  | .incPtr _ => true
  | .decPtr _ => true
  | .incByte _ => true
  | .decByte _ => true
  | .output => true
  | .input => true
termination_by n => (sizeOf n, 0)
decreasing_by all_goals simp_wf <;> omega

def adjListOK : List Node → Bool
  | [] => true
  | [n] => adjOK n
  | a :: b :: rest => pairOK a b && adjOK a && adjListOK (b :: rest)
termination_by ns => (sizeOf ns, 1)
decreasing_by all_goals simp_wf <;> omega

end

/-- Ordering invariant of the optimizer's reversed output list: when a later
element (`a`) and the element emitted just before it (`b`) are mergeable of
the same class, the earlier one is already full. -/
def revPairR (a b : Node) : Prop :=
  ∀ k, a.mergeKind = some k → b.mergeKind = some k → 255 ≤ b.countOf

/-- The run predicate of the optimizer claims: membership in the mergeable
class `c`. -/
def kindIs (c : MKind) : Node → Bool := fun m => decide (m.mergeKind = some c)

/-! ### Auxiliary concrete byte sequences used in statements -/

/-- The byte sequence every `Output` node emits (used by the C1 witness). -/
def outputBytes : List Nat :=
  [0xB8, 4, 0, 0, 0, 0xBB, 1, 0, 0, 0, 0x89, 0xE1, 0xBA, 1, 0, 0, 0, 0xCD, 0x80]

/-- The 84 bytes the linker actually writes before the code, for an empty
code buffer. -/
def elfPreludeEmpty : List Nat :=
  [0x7F, 0x45, 0x4C, 0x46, 1, 1, 0, 0, 0, 0, 0, 0, 0, 0, 0, 0,
   2, 0, 3, 0, 1, 0, 0, 0, 0x54, 0x80, 0x04, 0x08, 52, 0, 0, 0,
   0, 0, 0, 0, 0, 0, 0, 0, 52, 0, 32, 0, 1, 0, 0, 0, 0, 0, 0, 0,
   1, 0, 0, 0, 0, 0, 0, 0, 0x00, 0x80, 0x04, 0x08, 0x00, 0x80, 0x04, 0x08,
   84, 0, 0, 0, 84, 0, 0, 0, 5, 0, 0, 0, 0, 0x10, 0, 0]

/-! ### Basic byte-level lemmas -/

theorem i32le_length (v : Int) : (i32le v).length = 4 := by
  simp [i32le, u32le]

/-! ### Claim C1: loop emission -/

/-- C1: for every `Loop` node whose body emits successfully (`B` body bytes,
small enough for the 32-bit relative displacements that `struct.pack('<i', ·)`
accepts), the generator emits exactly the 4-byte `cmp byte [esp], 0`, a 6-byte
`je` with little-endian signed 32-bit displacement `B + 5`, the `B` body bytes
verbatim, and a 5-byte `jmp` with displacement `-(B + 15)`; the total length
is `B + 15` at every nesting depth. -/
theorem loop_emission_shape (ns : List Node) (body : List Nat)
    (hb : genList ns = some body) (hfit : body.length + 15 ≤ 2 ^ 31) :
    generate (.loop ns) = some ([0x80, 0x3C, 0x24, 0x00]
        ++ ([0x0F, 0x84] ++ i32le ((body.length : Int) + 5))
        ++ body ++ ([0xE9] ++ i32le (-(body.length : Int) - 15)))
    ∧ ([0x80, 0x3C, 0x24, 0x00]
        ++ ([0x0F, 0x84] ++ i32le ((body.length : Int) + 5))
        ++ body ++ ([0xE9] ++ i32le (-(body.length : Int) - 15))).length
      = body.length + 15 := by
  have hje : je ((body.length : Int) + 5)
      = some ([0x0F, 0x84] ++ i32le ((body.length : Int) + 5)) := by
    rw [je]
    rw [show pack_i32 ((body.length : Int) + 5)
        = some (i32le ((body.length : Int) + 5)) from ?_]
    · rfl
    · rw [pack_i32, if_pos]; constructor <;> omega
  have hjmp : jmp (-(body.length : Int) - 15)
      = some ([0xE9] ++ i32le (-(body.length : Int) - 15)) := by
    rw [jmp]
    rw [show chrB JMP = some [0xE9] from by rw [chrB, JMP]; rfl]
    rw [show pack_i32 (-(body.length : Int) - 15)
        = some (i32le (-(body.length : Int) - 15)) from ?_]
    · rfl
    · rw [pack_i32, if_pos]; constructor <;> omega
  have hcmp : cmp_esp_byte 0 = some [0x80, 0x3C, 0x24, 0x00] := by
    rw [cmp_esp_byte, chrB]; rfl
  constructor
  · rw [generate.eq_2, hb, Option.bind_eq_bind, Option.some_bind, hcmp]
    simp only [Option.some_bind, hje, hjmp]
    rfl
  · simp [i32le_length]
    omega

theorem genList_output : genList [Node.output] = some outputBytes := by
  simp [genList, generate, mov_ri, mov_rr, int, chrB, pack_u32, u32le, MOV_REG_IMM,
    MOV_REG_REG, INT, SYSCALL, EAX, EBX, ECX, EDX, ESP, MOD_RR, outputBytes]

/-- Witness for C1 at the concrete loop `[.]`. -/
theorem loop_emission_shape_witness :
    genList [Node.output] = some outputBytes ∧ outputBytes.length + 15 ≤ 2 ^ 31 ∧
      (generate (.loop [Node.output]) = some ([0x80, 0x3C, 0x24, 0x00]
          ++ ([0x0F, 0x84] ++ i32le ((outputBytes.length : Int) + 5))
          ++ outputBytes ++ ([0xE9] ++ i32le (-(outputBytes.length : Int) - 15)))
        ∧ ([0x80, 0x3C, 0x24, 0x00]
            ++ ([0x0F, 0x84] ++ i32le ((outputBytes.length : Int) + 5))
            ++ outputBytes ++ ([0xE9] ++ i32le (-(outputBytes.length : Int) - 15))).length
          = outputBytes.length + 15) := by
  have hfit : outputBytes.length + 15 ≤ 2 ^ 31 := by norm_num [outputBytes]
  exact ⟨genList_output, hfit, loop_emission_shape [Node.output] outputBytes genList_output hfit⟩

/-! ### Claim C2: per-node emission schemas -/

/-- C2: each non-loop node emits exactly the byte schema of the per-node
table: `IncPtr` emits `4C` when `N = 1` and `83 EC N` when `N > 1`, `DecPtr`
emits `44` / `83 C4 N`, `IncByte` emits `FE 04 24` / `80 04 24 N`, `DecByte`
emits `FE 0C 24` / `80 2C 24 N`, and `Output` / `Input` emit the five-
instruction `int 0x80` syscall sequences with the stated immediates. -/
theorem node_emission_schema (N : Nat) (h1 : 1 ≤ N) (h2 : N ≤ 255) :
    (generate (.incPtr N) = some (if N = 1 then [0x4C] else [0x83, 0xEC, N]))
  ∧ (generate (.decPtr N) = some (if N = 1 then [0x44] else [0x83, 0xC4, N]))
  ∧ (generate (.incByte N) = some (if N = 1 then [0xFE, 0x04, 0x24] else [0x80, 0x04, 0x24, N]))
  ∧ (generate (.decByte N) = some (if N = 1 then [0xFE, 0x0C, 0x24] else [0x80, 0x2C, 0x24, N]))
  ∧ generate .output
      = some [0xB8, 4, 0, 0, 0, 0xBB, 1, 0, 0, 0, 0x89, 0xE1, 0xBA, 1, 0, 0, 0, 0xCD, 0x80]
  ∧ generate .input
      = some [0xB8, 3, 0, 0, 0, 0xBB, 0, 0, 0, 0, 0x89, 0xE1, 0xBA, 1, 0, 0, 0, 0xCD, 0x80] := by
  have hN : N < 256 := by omega
  refine ⟨?_, ?_, ?_, ?_, ?_, ?_⟩
  · rw [generate.eq_3]
    rcases eq_or_ne N 1 with h | h <;>
      simp [h, dec_reg, sub_reg, chrB, hN, DEC, ADDSUB, ESP, MOD_RR]
  · rw [generate.eq_4]
    rcases eq_or_ne N 1 with h | h <;>
      simp [h, inc_reg, add_reg, chrB, hN, INC, ADDSUB, ESP, MOD_RR]
  · rw [generate.eq_5]
    rcases eq_or_ne N 1 with h | h <;>
      simp [h, inc_esp_byte, add_esp_byte, chrB, hN]
  · rw [generate.eq_6]
    rcases eq_or_ne N 1 with h | h <;>
      simp [h, dec_esp_byte, sub_esp_byte, chrB, hN]
  · rw [generate.eq_7]
    simp [mov_ri, mov_rr, int, chrB, pack_u32, u32le, MOV_REG_IMM, MOV_REG_REG,
      INT, SYSCALL, EAX, EBX, ECX, EDX, ESP, MOD_RR]
  · rw [generate.eq_8]
    simp [mov_ri, mov_rr, int, chrB, pack_u32, u32le, MOV_REG_IMM, MOV_REG_REG,
      INT, SYSCALL, EAX, EBX, ECX, EDX, ESP, MOD_RR]

/-- Witness for C2 at `N = 2`. -/
theorem node_emission_schema_witness :
    1 ≤ 2 ∧ 2 ≤ 255 ∧
    ((generate (.incPtr 2) = some (if 2 = 1 then [0x4C] else [0x83, 0xEC, 2]))
  ∧ (generate (.decPtr 2) = some (if 2 = 1 then [0x44] else [0x83, 0xC4, 2]))
  ∧ (generate (.incByte 2) = some (if 2 = 1 then [0xFE, 0x04, 0x24] else [0x80, 0x04, 0x24, 2]))
  ∧ (generate (.decByte 2) = some (if 2 = 1 then [0xFE, 0x0C, 0x24] else [0x80, 0x2C, 0x24, 2]))
  ∧ generate .output
      = some [0xB8, 4, 0, 0, 0, 0xBB, 1, 0, 0, 0, 0x89, 0xE1, 0xBA, 1, 0, 0, 0, 0xCD, 0x80]
  ∧ generate .input
      = some [0xB8, 3, 0, 0, 0, 0xBB, 0, 0, 0, 0, 0x89, 0xE1, 0xBA, 1, 0, 0, 0, 0xCD, 0x80]) :=
  ⟨by decide, by decide, node_emission_schema 2 (by decide) (by decide)⟩

/-! ### Claim C3: the ELF prelude -/

/-- C3 evidence: the prelude matches the claimed fixed layout everywhere
except byte 6 (`e_ident`'s `EI_VERSION`), which the code writes as 0 although
the claim (and the code's own comment, `Current header version`, i.e.
`EV_CURRENT = 1`) requires 1. -/
theorem elf_prelude_version_byte :
    linker_write [] [] = some elfPreludeEmpty ∧ elfPreludeEmpty.get? 6 = some 0 ∧
    elfPreludeEmpty.length = 84 := by decide

/-! ### Claim C4: `Linker.write` writes the global `code`, not `self.code` -/

/-- C4 evidence: a `Linker` owning code `[0xAA]`, run while the module-level
`code` variable holds `[0xBB]`, writes `[0xBB]` after the 84-byte prelude —
not its own buffer, contradicting the claim that the payload is `self.code`
regardless of other bindings of the name `code`. -/
theorem linker_write_payload_global :
    (linker_write [0xAA] [0xBB]).map (List.drop 84) = some [0xBB] ∧
    linker_write [0xAA] [0xBB] ≠
      (write_header.bind fun h => (write_program_header 1).map fun p => h ++ p ++ [0xAA]) := by
  decide

/-! ### Claim C9: usage line on wrong arity -/

/-- C9 counterexample: invoked with no argument, the program prints
`usage: bfc.py <program.bf>`, not the claimed `usage: bfc <program.bf>`. -/
theorem usage_message_counterexample :
    mainRun ["bfc.py"] (fun _ => none) = some ⟨1, "usage: bfc.py <program.bf>\n", none⟩ ∧
    "usage: bfc.py <program.bf>\n" ≠ "usage: bfc <program.bf>\n" :=
  ⟨rfl, by decide⟩

/-- C9 (amended): whenever the number of command-line words differs from two
(the interpreter name plus exactly one source path), the compiler writes
`usage: bfc.py <program.bf>` to stderr and exits with status 1. -/
theorem usage_error_on_wrong_arity (argv : List String) (fs : String → Option String)
    (h : argv.length ≠ 2) :
    mainRun argv fs = some ⟨1, "usage: bfc.py <program.bf>\n", none⟩ := by
  rcases argv with _ | ⟨a, _ | ⟨b, _ | ⟨c, rest⟩⟩⟩
  · rfl
  · rfl
  · simp at h
  · rfl

/-- Witness for the amended C9 at `argv = []`. -/
theorem usage_error_on_wrong_arity_witness :
    ([] : List String).length ≠ 2 ∧
    mainRun [] (fun _ => none) = some ⟨1, "usage: bfc.py <program.bf>\n", none⟩ :=
  ⟨by decide, usage_error_on_wrong_arity [] (fun _ => none) (by decide)⟩

/-! ### Claim C8: the optimizer is not read-only on its input -/

theorem mkM_countOf {n : Node} {c : MKind} (h : n.mergeKind = some c) :
    mkM c n.countOf = n := by
  cases n <;> simp_all [Node.mergeKind, Node.countOf, mkM] <;> subst h <;> rfl

/-- C8 counterexample: optimizing `Program [IncByte(1), IncByte(1)]` bumps
the first (shared) node's count to 2 in place, so the input tree does not
hold its pre-call value. -/
theorem optimizer_mutates_input :
    inputAfter (Node.program [Node.incByte 1, Node.incByte 1])
      ≠ Node.program [Node.incByte 1, Node.incByte 1] := by
  have he : inputAfter (Node.program [Node.incByte 1, Node.incByte 1])
      = Node.program [Node.incByte 2, Node.incByte 1] := by
    simp [inputAfter, childrenAfter, runAfter, Node.mergeKind, Node.countOf, mkM]
  rw [he]
  intro h
  injection h with h1
  injection h1 with h2 _
  injection h2 with h3
  exact absurd h3 (by decide)

mutual

/-- Helper for C8 (tree part of the mutual induction). -/
theorem inputAfter_noAdj_aux (t : Node) (h : noAdjSame t = true) : inputAfter t = t := by
  match t with
  | .program ns =>
    rw [inputAfter, childrenAfter_noAdj_aux ns (by rw [noAdjSame] at h; exact h)]
  | .loop ns =>
    rw [inputAfter, childrenAfter_noAdj_aux ns (by rw [noAdjSame] at h; exact h)]
  | .incPtr c => rw [inputAfter]
  | .decPtr c => rw [inputAfter]
  | .incByte c => rw [inputAfter]
  | .decByte c => rw [inputAfter]
  | .output => rw [inputAfter]
  | .input => rw [inputAfter]
termination_by (sizeOf t, 0)
decreasing_by all_goals simp_wf <;> omega

/-- Helper for C8 (child-list part of the mutual induction). -/
theorem childrenAfter_noAdj_aux (ns : List Node) (h : noAdjSameL ns = true) :
    childrenAfter ns = ns := by
  match ns with
  | [] => rw [childrenAfter]
  | n :: rest =>
    have hn : noAdjSame n = true := by
      match rest with
      | [] => rw [noAdjSameL] at h; exact h
      | b :: rest2 =>
        rw [noAdjSameL] at h
        simp only [Bool.and_eq_true] at h
        exact h.1.2
    have hrest : noAdjSameL rest = true := by
      match rest with
      | [] => rw [noAdjSameL]
      | b :: rest2 =>
        rw [noAdjSameL] at h
        simp only [Bool.and_eq_true] at h
        exact h.2
    rw [childrenAfter]
    cases hk : n.mergeKind with
    | some c =>
      simp only [hk]
      match rest with
      | [] =>
        rw [runAfter, mkM_countOf hk]
      | b :: rest2 =>
        have hbne : ¬(b.mergeKind = some c ∧ n.countOf < 255) := by
          rintro ⟨hb, -⟩
          rw [noAdjSameL] at h
          simp only [Bool.and_eq_true] at h
          have h1 := h.1.1
          rw [hk, hb] at h1
          simp at h1
        rw [runAfter, if_neg hbne]
        rw [childrenAfter_noAdj_aux (b :: rest2) hrest, mkM_countOf hk]
    | none =>
      simp only [hk]
      rw [inputAfter_noAdj_aux n hn, childrenAfter_noAdj_aux rest hrest]
termination_by (sizeOf ns, 1)
decreasing_by all_goals simp_wf <;> omega

end

/-- C8 amended: the optimizer returns a new tree but mutates the input in
place only through `last_node.count += 1` on merged runs, so whenever no two
adjacent siblings anywhere in the input are mergeable nodes of the same
variant, every node of the input tree holds exactly its pre-call value. -/
theorem optimizer_input_frame (t : Node) (h : noAdjSame t = true) : inputAfter t = t :=
  inputAfter_noAdj_aux t h

/-- Witness for the amended C8. -/
theorem optimizer_input_frame_witness :
    noAdjSame (Node.program [Node.incByte 1, Node.output, Node.incByte 1]) = true ∧
    inputAfter (Node.program [Node.incByte 1, Node.output, Node.incByte 1])
      = Node.program [Node.incByte 1, Node.output, Node.incByte 1] := by
  have h : noAdjSame (Node.program [Node.incByte 1, Node.output, Node.incByte 1]) = true := by
    simp [noAdjSame, noAdjSameL, Node.mergeKind]
  exact ⟨h, optimizer_input_frame _ h⟩

/-! ### Claims C5 and C6: optimizer run-length encoding and maximality -/


theorem mkM_mergeKind (c : MKind) (v : Nat) : (mkM c v).mergeKind = some c := by
  cases c <;> rfl

theorem mkM_countOf_self (c : MKind) (v : Nat) : (mkM c v).countOf = v := by
  cases c <;> rfl

theorem bump_mkM (c : MKind) (v : Nat) : bump (mkM c v) = mkM c (v + 1) := by
  cases c <;> rfl

theorem optimize_mergeable {n : Node} {c : MKind} (h : n.mergeKind = some c) :
    optimize n = n := by
  cases n
  case program ns => exact absurd h (by simp [Node.mergeKind])
  case loop ns => exact absurd h (by simp [Node.mergeKind])
  all_goals simp [optimize]

theorem optimize_output : optimize .output = .output := by simp [optimize]

theorem optimize_input : optimize .input = .input := by simp [optimize]

theorem optimize_mergeKind (n : Node) : (optimize n).mergeKind = n.mergeKind := by
  cases n <;> (try simp [optimize]) <;> (try simp [Node.mergeKind])

theorem mergeCond_none_right {n last : Node} (h : last.mergeKind = none) :
    mergeCond n last = false := by
  rw [mergeCond, h]
  cases n.mergeKind <;> rfl

theorem mergeCond_none_left {n last : Node} (h : n.mergeKind = none) :
    mergeCond n last = false := by
  rw [mergeCond, h]

theorem mergeCond_kind_ne {n last : Node} {c1 c2 : MKind} (hn : n.mergeKind = some c1)
    (hl : last.mergeKind = some c2) (hne : c1 ≠ c2) : mergeCond n last = false := by
  rw [mergeCond, hn, hl]
  simp [hne]

theorem mergeCond_mkM (c : MKind) (v : Nat) :
    mergeCond (mkM c 1) (mkM c v) = decide (v < 255) := by
  rw [mergeCond, mkM_mergeKind, mkM_mergeKind, mkM_countOf_self]
  simp

theorem eq_mkM_one {n : Node} {c : MKind} (hk : n.mergeKind = some c)
    (h1 : countsOne n = true) : n = mkM c 1 := by
  cases n <;> simp_all [Node.mergeKind, countsOne, mkM] <;> simp [← hk, mkM]

theorem countsOneL_mem {ns : List Node} {n : Node} (h : countsOneL ns = true) (hm : n ∈ ns) :
    countsOne n = true := by
  induction ns with
  | nil => cases hm
  | cons a rest ih =>
    rw [countsOneL, Bool.and_eq_true] at h
    rcases hm with _ | hm
    · exact h.1
    · exact ih h.2 ‹_›

theorem countsOneL_dropWhile {ns : List Node} (p : Node → Bool) (h : countsOneL ns = true) :
    countsOneL (ns.dropWhile p) = true := by
  induction ns with
  | nil => exact h
  | cons a rest ih =>
    rw [List.dropWhile]
    rw [countsOneL, Bool.and_eq_true] at h
    cases p a
    · simpa [countsOneL] using (by rw [countsOneL, Bool.and_eq_true]; exact h : countsOneL (a :: rest) = true)
    · exact ih h.2

theorem dropWhile_head_not {ns : List Node} {p : Node → Bool} {x : Node}
    (h : (ns.dropWhile p).head? = some x) : p x = false := by
  induction ns with
  | nil => cases h
  | cons a rest ih =>
    rw [List.dropWhile] at h
    cases hp : p a
    · rw [hp] at h
      simp at h
      subst h
      exact hp
    · rw [hp] at h
      exact ih h




theorem kindIs_true {c : MKind} {m : Node} (h : m.mergeKind = some c) : kindIs c m = true := by
  simp [kindIs, h]

theorem kindIs_false {c : MKind} {m : Node} (h : ¬m.mergeKind = some c) : kindIs c m = false := by
  simp [kindIs, h]

theorem chunksFrom_succ (c : MKind) (v j : Nat) (h : v < 255) :
    chunksFrom c v (j + 1) = chunksFrom c (v + 1) j := by
  rw [chunksFrom]
  conv_rhs => rw [chunksFrom]
  by_cases hj : j ≤ 255 - (v + 1)
  · rw [if_pos (by omega), if_pos hj]
    rw [show v + (j + 1) = v + 1 + j from by omega]
  · rw [if_neg (by omega), if_neg hj]
    rw [show j + 1 - (255 - v) - 1 = j - (255 - (v + 1)) - 1 from by omega]

theorem chunksFrom_one (c : MKind) (j : Nat) : chunksFrom c 1 j = chunksOf c (j + 1) := by
  induction j using Nat.strong_induction_on with
  | _ j ih =>
    rw [chunksFrom]
    by_cases hj : j ≤ 254
    · rw [if_pos (by omega), chunksOf]
      rcases eq_or_lt_of_le (show j + 1 ≤ 255 by omega) with he | hl
      · rw [show (j + 1) / 255 = 1 from by omega, show (j + 1) % 255 = 0 from by omega]
        rw [show (1 : Nat) + j = 255 from by omega]
        simp
      · rw [show (j + 1) / 255 = 0 from by omega, show (j + 1) % 255 = j + 1 from by omega]
        rw [if_neg (by omega)]
        rw [show (1 : Nat) + j = j + 1 from by omega]
        simp
    · rw [if_neg (by omega)]
      rw [show j - (255 - 1) - 1 = j - 255 from by omega]
      rw [ih (j - 255) (by omega)]
      rw [chunksOf, chunksOf]
      rw [show (j + 1) / 255 = (j - 255 + 1) / 255 + 1 from by omega,
          show (j + 1) % 255 = (j - 255 + 1) % 255 from by omega]
      rw [List.replicate_succ]
      simp

theorem chunksFrom_ne_nil (c : MKind) (v j : Nat) : chunksFrom c v j ≠ [] := by
  rw [chunksFrom]
  split <;> simp

theorem chunksFrom_kind (c : MKind) (j : Nat) : ∀ v x, x ∈ chunksFrom c v j →
    x.mergeKind = some c := by
  induction j using Nat.strong_induction_on with
  | _ j ih =>
    intro v x hx
    rw [chunksFrom] at hx
    by_cases hj : j ≤ 255 - v
    · rw [if_pos hj] at hx
      simp at hx
      subst hx
      exact mkM_mergeKind c _
    · rw [if_neg hj] at hx
      rcases List.mem_cons.mp hx with h | h
      · subst h
        exact mkM_mergeKind c _
      · exact ih (j - (255 - v) - 1) (by omega) 1 x h

theorem chunksFrom_counts (c : MKind) (j : Nat) : ∀ v x, 1 ≤ v → v ≤ 255 →
    x ∈ chunksFrom c v j → 1 ≤ x.countOf ∧ x.countOf ≤ 255 := by
  induction j using Nat.strong_induction_on with
  | _ j ih =>
    intro v x hv1 hv2 hx
    rw [chunksFrom] at hx
    by_cases hj : j ≤ 255 - v
    · rw [if_pos hj] at hx
      simp at hx
      subst hx
      rw [mkM_countOf_self]
      omega
    · rw [if_neg hj] at hx
      rcases List.mem_cons.mp hx with h | h
      · subst h
        rw [mkM_countOf_self]
        omega
      · exact ih (j - (255 - v) - 1) (by omega) 1 x (by omega) (by omega) h

theorem takeWhile_eq_replicate {ns : List Node} (c : MKind) (h : countsOneL ns = true) :
    ns.takeWhile (kindIs c)
      = List.replicate (ns.takeWhile (kindIs c)).length (mkM c 1) := by
  induction ns with
  | nil => rfl
  | cons a rest ih =>
    rw [countsOneL, Bool.and_eq_true] at h
    by_cases hp : a.mergeKind = some c
    · have ha : a = mkM c 1 := eq_mkM_one hp h.1
      rw [List.takeWhile_cons, if_pos (by simp [kindIs_true hp])]
      rw [List.length_cons, List.replicate_succ, ← ih h.2, ← ha]
    · rw [List.takeWhile_cons, if_neg (by simp [kindIs_false hp])]
      rfl

theorem rleRun_spec (c : MKind) (ns : List Node) : ∀ k,
    rleRun c k ns = chunksOf c (k + (ns.takeWhile (kindIs c)).length)
      ++ rleList (ns.dropWhile (kindIs c)) := by
  induction ns with
  | nil =>
    intro k
    rw [rleRun]
    simp [rleList]
  | cons b rest ih =>
    intro k
    by_cases hb : b.mergeKind = some c
    · rw [rleRun, if_pos hb, ih (k + 1)]
      rw [List.takeWhile_cons, if_pos (by simp [kindIs_true hb]),
          List.dropWhile_cons, if_pos (by simp [kindIs_true hb])]
      rw [List.length_cons]
      have harith : k + 1 + (rest.takeWhile (kindIs c)).length
          = k + ((rest.takeWhile (kindIs c)).length + 1) := by omega
      rw [harith]
    · rw [rleRun, if_neg hb]
      rw [List.takeWhile_cons, if_neg (by simp [kindIs_false hb]),
          List.dropWhile_cons, if_neg (by simp [kindIs_false hb])]
      rw [List.length_nil, Nat.add_zero]



theorem optFoldAux_run (c : MKind) (j : Nat) : ∀ v acc rest, 1 ≤ v → v ≤ 255 →
    optFoldAux (List.replicate j (mkM c 1) ++ rest) (mkM c v :: acc)
      = optFoldAux rest ((chunksFrom c v j).reverse ++ acc) := by
  induction j with
  | zero =>
    intro v acc rest hv1 hv2
    rw [List.replicate_zero, List.nil_append]
    rw [chunksFrom, if_pos (by omega)]
    simp
  | succ j ih =>
    intro v acc rest hv1 hv2
    rw [List.replicate_succ, List.cons_append, optFoldAux]
    rw [optimize_mergeable (mkM_mergeKind c 1)]
    rw [mergeStep, mergeCond_mkM]
    by_cases hv : v < 255
    · rw [if_pos (by simp [hv]), bump_mkM]
      rw [ih (v + 1) acc rest (by omega) (by omega)]
      rw [chunksFrom_succ c v j hv]
    · have hv255 : v = 255 := by omega
      subst hv255
      rw [if_neg (by simp)]
      rw [ih 1 (mkM c 255 :: acc) rest (by omega) (by omega)]
      have hch : chunksFrom c 255 (j + 1) = mkM c 255 :: chunksFrom c 1 j := by
        rw [chunksFrom, if_neg (by omega)]
        rw [show j + 1 - (255 - 255) - 1 = j from by omega]
      rw [hch, List.reverse_cons, List.append_assoc]
      simp

theorem optFoldAux_rle_bounded : ∀ (N : Nat) (ns : List Node), ns.length ≤ N →
    countsOneL ns = true →
    (∀ n ∈ ns, optimize n = rleTree n) →
    ∀ acc, (∀ last n, acc.head? = some last → ns.head? = some n →
              mergeCond (optimize n) last = false) →
    optFoldAux ns acc = (rleList ns).reverse ++ acc := by
  intro N
  induction N with
  | zero =>
    intro ns hlen _ _ acc _
    have hnil : ns = [] := List.length_eq_zero.mp (Nat.le_zero.mp hlen)
    subst hnil
    rw [optFoldAux, rleList]
    simp
  | succ N ih =>
    intro ns hlen hone hopt acc hblock
    match ns with
    | [] =>
      rw [optFoldAux, rleList]
      simp
    | n :: rest =>
      rw [countsOneL, Bool.and_eq_true] at hone
      have hlen' : rest.length ≤ N := by
        simp only [List.length_cons] at hlen
        omega
      have hms : mergeStep acc (optimize n) = optimize n :: acc := by
        match acc with
        | [] => rw [mergeStep]
        | last :: acc' =>
          rw [mergeStep, if_neg ?_]
          rw [hblock last n rfl rfl]
          simp
      cases hk : n.mergeKind with
      | none =>
        rw [optFoldAux, hms]
        rw [ih rest hlen' hone.2 (fun m hm => hopt m (List.mem_cons_of_mem n hm))
            (optimize n :: acc) ?_]
        · rw [rleList]
          simp only [hk]
          rw [List.reverse_cons, List.append_assoc]
          rw [hopt n (List.mem_cons_self n rest)]
          simp
        · intro last m h1 h2
          simp only [List.head?_cons, Option.some.injEq] at h1
          subst h1
          exact mergeCond_none_right (by rw [optimize_mergeKind, hk])
      | some c =>
        have hn1 : n = mkM c 1 := eq_mkM_one hk hone.1
        have hopt_n : optimize n = n := optimize_mergeable hk
        have hdec : rest.takeWhile (kindIs c) ++ rest.dropWhile (kindIs c) = rest :=
          List.takeWhile_append_dropWhile (kindIs c) rest
        have hrep : rest.takeWhile (kindIs c)
            = List.replicate (rest.takeWhile (kindIs c)).length (mkM c 1) :=
          takeWhile_eq_replicate c hone.2
        have hdw_len : (rest.dropWhile (kindIs c)).length ≤ N :=
          le_trans (List.Sublist.length_le (List.dropWhile_sublist _)) hlen'
        have hdw_one : countsOneL (rest.dropWhile (kindIs c)) = true :=
          countsOneL_dropWhile _ hone.2
        have hdw_opt : ∀ m ∈ rest.dropWhile (kindIs c), optimize m = rleTree m := by
          intro m hm
          exact hopt m (List.mem_cons_of_mem n ((List.dropWhile_sublist _).subset hm))
        have hstep : optFoldAux (n :: rest) acc
            = optFoldAux (List.replicate (rest.takeWhile (kindIs c)).length (mkM c 1)
                ++ rest.dropWhile (kindIs c)) (mkM c 1 :: acc) := by
          rw [optFoldAux, hms, hopt_n]
          congr 1
          · conv_lhs => rw [← hdec, hrep]
          · rw [hn1]
        rw [hstep,
          optFoldAux_run c (rest.takeWhile (kindIs c)).length 1 acc (rest.dropWhile (kindIs c))
            (by omega) (by omega)]
        rw [ih (rest.dropWhile (kindIs c)) hdw_len hdw_one hdw_opt
            ((chunksFrom c 1 (rest.takeWhile (kindIs c)).length).reverse ++ acc) ?_]
        · conv_rhs => rw [rleList]
          simp only [hk]
          rw [rleRun_spec c rest 1, chunksFrom_one]
          rw [show (1 : Nat) + (rest.takeWhile (kindIs c)).length
              = (rest.takeWhile (kindIs c)).length + 1 from by omega]
          rw [List.reverse_append, List.append_assoc]
        · intro last m h1 h2
          have hlast_mem : last ∈ chunksFrom c 1 (rest.takeWhile (kindIs c)).length := by
            rw [List.head?_append, List.head?_reverse] at h1
            match hgl : (chunksFrom c 1 (rest.takeWhile (kindIs c)).length).getLast? with
            | none =>
              exfalso
              rw [List.getLast?_eq_none_iff] at hgl
              exact chunksFrom_ne_nil c 1 (rest.takeWhile (kindIs c)).length hgl
            | some y =>
              rw [hgl] at h1
              simp at h1
              subst h1
              have hy : y ∈ (chunksFrom c 1 (rest.takeWhile (kindIs c)).length).getLast? := by
                rw [hgl]
                rfl
              obtain ⟨hne, hyx⟩ := List.mem_getLast?_eq_getLast hy
              rw [hyx]
              exact List.getLast_mem hne
          have hlast_kind : last.mergeKind = some c :=
            chunksFrom_kind c (rest.takeWhile (kindIs c)).length 1 last hlast_mem
          have hm_not : kindIs c m = false := dropWhile_head_not h2
          rw [kindIs] at hm_not
          simp only [decide_eq_false_iff_not] at hm_not
          cases hkm : m.mergeKind with
          | none => exact mergeCond_none_left (by rw [optimize_mergeKind, hkm])
          | some c2 =>
            have hkm2 : (optimize m).mergeKind = some c2 := by rw [optimize_mergeKind, hkm]
            refine mergeCond_kind_ne hkm2 hlast_kind ?_
            intro hc
            exact hm_not (by rw [hkm, hc])



theorem sizeOf_dropWhile_le (p : Node → Bool) (l : List Node) :
    sizeOf (l.dropWhile p) ≤ sizeOf l := by
  induction l with
  | nil => exact le_refl _
  | cons a rest ih =>
    simp only [List.dropWhile]
    cases hp : p a
    · simp only [hp]
      exact le_refl _
    · simp only [hp]
      refine le_trans ih ?_
      simp only [List.cons.sizeOf_spec]
      omega

mutual

theorem optimize_eq_rleTree (t : Node) (h : countsOne t = true) : optimize t = rleTree t := by
  match t with
  | .program ns =>
    rw [optimize, rleTree, optList_eq_rleList ns (by rw [countsOne] at h; exact h)]
  | .loop ns =>
    rw [optimize, rleTree, optList_eq_rleList ns (by rw [countsOne] at h; exact h)]
  | .incPtr c => simp [optimize, rleTree]
  | .decPtr c => simp [optimize, rleTree]
  | .incByte c => simp [optimize, rleTree]
  | .decByte c => simp [optimize, rleTree]
  | .output => simp [optimize, rleTree]
  | .input => simp [optimize, rleTree]
termination_by (sizeOf t, 1)
decreasing_by all_goals simp_wf <;> omega

theorem optList_eq_rleList (ns : List Node) (h : countsOneL ns = true) :
    optList ns = rleList ns := by
  rw [optList]
  rw [optFoldAux_rle_bounded ns.length ns (le_refl _) h
      (fun n hn => optimize_eq_rleTree n (countsOneL_mem h hn)) []
      (fun last n h1 _ => by cases h1)]
  simp
termination_by (sizeOf ns, 0)
decreasing_by all_goals simp_wf
              have := List.sizeOf_lt_of_mem hn
              omega

end



theorem countsInRangeL_append (l1 l2 : List Node) :
    countsInRangeL (l1 ++ l2) = (countsInRangeL l1 && countsInRangeL l2) := by
  induction l1 with
  | nil => rw [List.nil_append, countsInRangeL, Bool.true_and]
  | cons a rest ih =>
    rw [List.cons_append, countsInRangeL, countsInRangeL, ih, Bool.and_assoc]

theorem countsInRange_of_mergeable {x : Node} {c : MKind} (hk : x.mergeKind = some c)
    (h1 : 1 ≤ x.countOf) (h2 : x.countOf ≤ 255) : countsInRange x = true := by
  cases x <;> simp_all [Node.mergeKind, Node.countOf, countsInRange]

theorem countsInRangeL_forall {l : List Node} (h : ∀ x ∈ l, countsInRange x = true) :
    countsInRangeL l = true := by
  induction l with
  | nil => rw [countsInRangeL]
  | cons a rest ih =>
    rw [countsInRangeL, Bool.and_eq_true]
    exact ⟨h a (List.mem_cons_self a rest), ih (fun x hx => h x (List.mem_cons_of_mem a hx))⟩

mutual

theorem rleTree_inRange (t : Node) (h : countsOne t = true) :
    countsInRange (rleTree t) = true := by
  match t with
  | .program ns =>
    rw [rleTree, countsInRange]
    exact rleList_inRange ns (by rw [countsOne] at h; exact h)
  | .loop ns =>
    rw [rleTree, countsInRange]
    exact rleList_inRange ns (by rw [countsOne] at h; exact h)
  | .incPtr c =>
    rw [rleTree, countsInRange] at *
    rw [countsOne] at h
    simp_all
  | .decPtr c =>
    rw [rleTree, countsInRange] at *
    rw [countsOne] at h
    simp_all
  | .incByte c =>
    rw [rleTree, countsInRange] at *
    rw [countsOne] at h
    simp_all
  | .decByte c =>
    rw [rleTree, countsInRange] at *
    rw [countsOne] at h
    simp_all
  | .output => rw [rleTree, countsInRange]
  | .input => rw [rleTree, countsInRange]
termination_by (sizeOf t, 0)
decreasing_by all_goals simp_wf <;> omega

theorem rleList_inRange (ns : List Node) (h : countsOneL ns = true) :
    countsInRangeL (rleList ns) = true := by
  match ns with
  | [] => rw [rleList, countsInRangeL]
  | n :: rest =>
    rw [countsOneL, Bool.and_eq_true] at h
    rw [rleList]
    cases hk : n.mergeKind with
    | some c =>
      simp only [hk]
      rw [rleRun_spec c rest 1, countsInRangeL_append, Bool.and_eq_true]
      constructor
      · rw [show (1 : Nat) + (rest.takeWhile (kindIs c)).length
            = (rest.takeWhile (kindIs c)).length + 1 from by omega, ← chunksFrom_one]
        refine countsInRangeL_forall (fun x hx => ?_)
        have hcounts := chunksFrom_counts c (rest.takeWhile (kindIs c)).length 1 x
          (by omega) (by omega) hx
        exact countsInRange_of_mergeable
          (chunksFrom_kind c (rest.takeWhile (kindIs c)).length 1 x hx)
          hcounts.1 hcounts.2
      · exact rleList_inRange (rest.dropWhile (kindIs c)) (countsOneL_dropWhile _ h.2)
    | none =>
      simp only [hk]
      rw [countsInRangeL, Bool.and_eq_true]
      exact ⟨rleTree_inRange n h.1, rleList_inRange rest h.2⟩
termination_by (sizeOf ns, 1)
decreasing_by
  all_goals simp_wf
  all_goals first
    | omega
    | (have hdw := sizeOf_dropWhile_le (kindIs c) rest
       omega)

end



/-- C5: on a tree of single commands (every mergeable count 1, as the parser
produces), the optimizer returns exactly the leftmost-greedy run-length
encoding — every maximal run of `k` adjacent same-variant commands becomes
adjacent nodes with counts `255, 255, …, remainder` — and every mergeable
node of the optimized tree has count in `1..=255` (never 0, never above
255). -/
theorem optimizer_rle_counts (t : Node) (h : countsOne t = true) :
    optimize t = rleTree t ∧ countsInRange (optimize t) = true :=
  ⟨optimize_eq_rleTree t h, by
    rw [optimize_eq_rleTree t h]
    exact rleTree_inRange t h⟩

/-- C5 witness. -/
theorem optimizer_rle_counts_witness :
    countsOne (Node.program [Node.incByte 1, Node.incByte 1, Node.output, Node.incByte 1]) = true ∧
    (optimize (Node.program [Node.incByte 1, Node.incByte 1, Node.output, Node.incByte 1])
        = rleTree (Node.program [Node.incByte 1, Node.incByte 1, Node.output, Node.incByte 1]) ∧
     countsInRange (optimize
        (Node.program [Node.incByte 1, Node.incByte 1, Node.output, Node.incByte 1])) = true) := by
  have h : countsOne (Node.program [Node.incByte 1, Node.incByte 1, Node.output,
      Node.incByte 1]) = true := by
    simp [countsOne, countsOneL]
  exact ⟨h, optimizer_rle_counts _ h⟩



theorem bump_mergeKind (n : Node) : (bump n).mergeKind = n.mergeKind := by
  cases n <;> rfl

theorem adjOK_mergeable {n : Node} {k : MKind} (h : n.mergeKind = some k) :
    adjOK n = true := by
  cases n
  case program ns => exact absurd h (by simp [Node.mergeKind])
  case loop ns => exact absurd h (by simp [Node.mergeKind])
  all_goals rw [adjOK]

theorem countsPos_bump_mergeable {n : Node} {k : MKind} (h : n.mergeKind = some k) :
    countsPos (bump n) = true := by
  cases n
  case program ns => exact absurd h (by simp [Node.mergeKind])
  case loop ns => exact absurd h (by simp [Node.mergeKind])
  case output => exact absurd h (by simp [Node.mergeKind])
  case input => exact absurd h (by simp [Node.mergeKind])
  all_goals (rw [bump, countsPos]; simp)

theorem countsPos_mergeable_pos {x : Node} {k : MKind} (h : countsPos x = true)
    (hk : x.mergeKind = some k) : 1 ≤ x.countOf := by
  cases x <;> simp_all [Node.mergeKind, Node.countOf, countsPos]

theorem countsPosL_mem {ns : List Node} {n : Node} (h : countsPosL ns = true) (hm : n ∈ ns) :
    countsPos n = true := by
  induction ns with
  | nil => cases hm
  | cons a rest ih =>
    rw [countsPosL, Bool.and_eq_true] at h
    rcases hm with _ | hm
    · exact h.1
    · exact ih h.2 ‹_›

theorem countsPosL_forall {l : List Node} (h : ∀ x ∈ l, countsPos x = true) :
    countsPosL l = true := by
  induction l with
  | nil => rw [countsPosL]
  | cons a rest ih =>
    rw [countsPosL, Bool.and_eq_true]
    exact ⟨h a (List.mem_cons_self a rest), ih (fun x hx => h x (List.mem_cons_of_mem a hx))⟩

theorem mergeCond_true_elim {a b : Node} (h : mergeCond a b = true) :
    ∃ k, a.mergeKind = some k ∧ b.mergeKind = some k ∧ b.countOf < 255 := by
  rw [mergeCond] at h
  cases hka : a.mergeKind with
  | none => rw [hka] at h; cases h
  | some k1 =>
    cases hkb : b.mergeKind with
    | none => rw [hka, hkb] at h; cases h
    | some k2 =>
      rw [hka, hkb, Bool.and_eq_true] at h
      have hk : k1 = k2 := by simpa using h.1
      subst hk
      exact ⟨k1, rfl, rfl, by simpa using h.2⟩

theorem mergeCond_false_elim {a b : Node} {k : MKind} (h : mergeCond a b = false)
    (ha : a.mergeKind = some k) (hb : b.mergeKind = some k) : 255 ≤ b.countOf := by
  rw [mergeCond, ha, hb] at h
  simp at h
  omega

theorem optFoldAux_inv (ns : List Node) :
    ∀ acc, (∀ n ∈ ns, adjOK (optimize n) = true ∧ countsPos (optimize n) = true) →
    List.Chain' revPairR acc →
    (∀ x ∈ acc, adjOK x = true ∧ countsPos x = true) →
    List.Chain' revPairR (optFoldAux ns acc)
      ∧ ∀ x ∈ optFoldAux ns acc, adjOK x = true ∧ countsPos x = true := by
  induction ns with
  | nil =>
    intro acc _ h1 h2
    rw [optFoldAux]
    exact ⟨h1, h2⟩
  | cons n rest ih =>
    intro acc hns hch hmem
    rw [optFoldAux]
    have hn := hns n (List.mem_cons_self n rest)
    have hrest := fun m hm => hns m (List.mem_cons_of_mem n hm)
    have hstep : List.Chain' revPairR (mergeStep acc (optimize n))
        ∧ ∀ x ∈ mergeStep acc (optimize n), adjOK x = true ∧ countsPos x = true := by
      match acc with
      | [] =>
        rw [mergeStep]
        refine ⟨List.chain'_singleton _, ?_⟩
        intro x hx
        rcases List.mem_singleton.mp hx with rfl
        exact hn
      | last :: acc' =>
        rw [mergeStep]
        cases hcond : mergeCond (optimize n) last
        · rw [if_neg (by simp)]
          refine ⟨?_, ?_⟩
          · rw [List.chain'_cons']
            refine ⟨?_, hch⟩
            intro y hy
            rw [List.head?_cons, Option.mem_def, Option.some.injEq] at hy
            subst hy
            intro k hk1 hk2
            exact mergeCond_false_elim hcond hk1 hk2
          · intro x hx
            rcases List.mem_cons.mp hx with rfl | hx
            · exact hn
            · exact hmem x hx
        · rw [if_pos rfl]
          obtain ⟨k, hka, hkb, hlt⟩ := mergeCond_true_elim hcond
          refine ⟨?_, ?_⟩
          · rw [List.chain'_cons']
            refine ⟨?_, (List.chain'_cons'.mp hch).2⟩
            intro y hy k' hk1 hk2
            have hy' := (List.chain'_cons'.mp hch).1 y hy
            rw [bump_mergeKind] at hk1
            exact hy' k' hk1 hk2
          · intro x hx
            rcases List.mem_cons.mp hx with rfl | hx
            · exact ⟨adjOK_mergeable (by rw [bump_mergeKind]; exact hkb),
                countsPos_bump_mergeable hkb⟩
            · exact (hmem x (List.mem_cons_of_mem last hx))
    exact ih (mergeStep acc (optimize n)) hrest hstep.1 hstep.2

theorem adjListOK_of_revchain (l : List Node) :
    List.Chain' (fun a b => revPairR b a) l →
    (∀ x ∈ l, adjOK x = true ∧ countsPos x = true) →
    adjListOK l = true := by
  induction l with
  | nil => intro _ _; rw [adjListOK]
  | cons a rest ih =>
    intro hch hmem
    match rest with
    | [] =>
      rw [adjListOK]
      exact (hmem a (List.mem_cons_self a [])).1
    | b :: rest2 =>
      rw [adjListOK, Bool.and_eq_true, Bool.and_eq_true]
      have hR : revPairR b a := (List.chain'_cons.mp hch).1
      refine ⟨⟨?_, (hmem a (List.mem_cons_self a _)).1⟩,
        ih (List.chain'_cons.mp hch).2 (fun x hx => hmem x (List.mem_cons_of_mem a hx))⟩
      rw [pairOK]
      cases hka : a.mergeKind with
      | none => rfl
      | some k1 =>
        cases hkb : b.mergeKind with
        | none => rfl
        | some k2 =>
          by_cases hk : k1 = k2
          · subst hk
            have h255 : 255 ≤ a.countOf := hR k1 hkb hka
            have h1 : 1 ≤ b.countOf := countsPos_mergeable_pos
              (hmem b (List.mem_cons_of_mem a (List.mem_cons_self b _))).2 hkb
            simp
            omega
          · simp [hk]
  
mutual

theorem optimize_adj_aux (t : Node) (h : countsPos t = true) :
    adjOK (optimize t) = true ∧ countsPos (optimize t) = true := by
  match t with
  | .program ns =>
    rw [optimize, adjOK, countsPos]
    exact optList_adj_aux ns (by rw [countsPos] at h; exact h)
  | .loop ns =>
    rw [optimize, adjOK, countsPos]
    exact optList_adj_aux ns (by rw [countsPos] at h; exact h)
  | .incPtr c => exact ⟨by simp [optimize, adjOK], by simp [optimize]; exact h⟩
  | .decPtr c => exact ⟨by simp [optimize, adjOK], by simp [optimize]; exact h⟩
  | .incByte c => exact ⟨by simp [optimize, adjOK], by simp [optimize]; exact h⟩
  | .decByte c => exact ⟨by simp [optimize, adjOK], by simp [optimize]; exact h⟩
  | .output => exact ⟨by simp [optimize, adjOK], by simp [optimize]; exact h⟩
  | .input => exact ⟨by simp [optimize, adjOK], by simp [optimize]; exact h⟩
termination_by (sizeOf t, 0)
decreasing_by all_goals simp_wf <;> omega

theorem optList_adj_aux (ns : List Node) (h : countsPosL ns = true) :
    adjListOK (optList ns) = true ∧ countsPosL (optList ns) = true := by
  have hfold := optFoldAux_inv ns []
    (fun n hn => optimize_adj_aux n (countsPosL_mem h hn))
    List.chain'_nil (by intro x hx; cases hx)
  rw [optList]
  constructor
  · exact adjListOK_of_revchain _ (List.chain'_reverse.mpr hfold.1)
      (fun x hx => hfold.2 x (by simpa using hx))
  · exact countsPosL_forall (fun x hx => (hfold.2 x (by simpa using hx)).2)
termination_by (sizeOf ns, 1)
decreasing_by all_goals simp_wf
              have := List.sizeOf_lt_of_mem hn
              omega

end

/-- C6: in the optimized tree (of any input whose mergeable counts are
positive, as all pipeline trees are), within the body of every `Program` and
every `Loop` node, no two adjacent siblings are mergeable nodes of the same
variant whose counts sum to at most 255. -/
theorem optimizer_maximality (t : Node) (h : countsPos t = true) :
    adjOK (optimize t) = true :=
  (optimize_adj_aux t h).1

/-- C6 witness. -/
theorem optimizer_maximality_witness :
    countsPos (Node.program [Node.incByte 1, Node.incByte 1]) = true ∧
    adjOK (optimize (Node.program [Node.incByte 1, Node.incByte 1])) = true := by
  have h : countsPos (Node.program [Node.incByte 1, Node.incByte 1]) = true := by
    simp [countsPos, countsPosL]
  exact ⟨h, optimizer_maximality _ h⟩


/-! ### Claims C7 and C10: parser error classification and unit counts -/


theorem parser_scan_body_loop : ∀ f : Nat,
    (∀ ts : List Token, 2 * ts.length + 1 ≤ f →
      (∃ ns q, parseBodyF f ts = .ok (ns, Token.loopEnd :: q) ∧ q.length < ts.length ∧
        ∀ d, scanB ts (d + 1) = scanB q d)
      ∨ (parseBodyF f ts = .error "unexpected end of file" ∧
        ∀ d, scanB ts (d + 1) = Except.error "unexpected end of file"))
    ∧ (∀ rest : List Token, 2 * (rest.length + 1) ≤ f →
      (∃ n q, parseLoopF f (Token.loopStart :: rest) = .ok (n, q) ∧
        q.length + 2 ≤ rest.length + 1 ∧
        ∀ d, scanB (Token.loopStart :: rest) d = scanB q d)
      ∨ (parseLoopF f (Token.loopStart :: rest) = .error "unexpected end of file" ∧
        ∀ d, scanB (Token.loopStart :: rest) d = Except.error "unexpected end of file")) := by
  intro f
  induction f with
  | zero =>
    constructor
    · intro ts hlen
      omega
    · intro rest hlen
      omega
  | succ f ih =>
    constructor
    · -- the parse_loop body scanner
      intro ts hlen
      match ts with
      | [] =>
        right
        refine ⟨by rw [parseBodyF], fun d => ?_⟩
        rw [scanB]
        simp
      | t :: rest =>
        cases t
        case loopEnd =>
          left
          refine ⟨[], rest, ?_, by simp, fun d => ?_⟩
          · simp only [parseBodyF, reduceIte]
          · simp only [scanB]
        case loopStart =>
          have hloop := ih.2 rest (by simp at hlen ⊢; omega)
          rcases hloop with ⟨n, q, hok, hqlen, hscan⟩ | ⟨herr, hscan⟩
          · have hbody := ih.1 q (by simp at hlen ⊢; omega)
            rcases hbody with ⟨ns2, q2, hok2, hq2len, hscan2⟩ | ⟨herr2, hscan2⟩
            · left
              refine ⟨n :: ns2, q2, ?_, by simp at hlen ⊢; omega, fun d => ?_⟩
              · simp only [parseBodyF, reduceIte, reduceCtorEq, hok, hok2]
              · rw [show scanB (Token.loopStart :: rest) (d + 1) = scanB q (d + 1)
                    from hscan (d + 1)]
                exact hscan2 d
            · right
              refine ⟨?_, fun d => ?_⟩
              · simp only [parseBodyF, reduceIte, reduceCtorEq, hok, herr2]
              · rw [show scanB (Token.loopStart :: rest) (d + 1) = scanB q (d + 1)
                    from hscan (d + 1)]
                exact hscan2 d
          · right
            refine ⟨?_, fun d => ?_⟩
            · simp only [parseBodyF, reduceIte, reduceCtorEq, herr]
            · exact hscan (d + 1)
        case incPtr =>
          have hbody := ih.1 rest (by simp at hlen ⊢; omega)
          rcases hbody with ⟨ns, q, hok, hqlen, hscan⟩ | ⟨herr, hscan⟩
          · left
            refine ⟨Node.incPtr 1 :: ns, q, ?_, by simp only [List.length_cons]; omega, fun d => ?_⟩
            · simp only [parseBodyF, reduceIte, reduceCtorEq, parseCommand, hok]
            · simp only [scanB]
              exact hscan d
          · right
            refine ⟨?_, fun d => ?_⟩
            · simp only [parseBodyF, reduceIte, reduceCtorEq, parseCommand, herr]
            · simp only [scanB]
              exact hscan d
        case decPtr =>
          have hbody := ih.1 rest (by simp at hlen ⊢; omega)
          rcases hbody with ⟨ns, q, hok, hqlen, hscan⟩ | ⟨herr, hscan⟩
          · left
            refine ⟨Node.decPtr 1 :: ns, q, ?_, by simp only [List.length_cons]; omega, fun d => ?_⟩
            · simp only [parseBodyF, reduceIte, reduceCtorEq, parseCommand, hok]
            · simp only [scanB]
              exact hscan d
          · right
            refine ⟨?_, fun d => ?_⟩
            · simp only [parseBodyF, reduceIte, reduceCtorEq, parseCommand, herr]
            · simp only [scanB]
              exact hscan d
        case incByte =>
          have hbody := ih.1 rest (by simp at hlen ⊢; omega)
          rcases hbody with ⟨ns, q, hok, hqlen, hscan⟩ | ⟨herr, hscan⟩
          · left
            refine ⟨Node.incByte 1 :: ns, q, ?_, by simp only [List.length_cons]; omega, fun d => ?_⟩
            · simp only [parseBodyF, reduceIte, reduceCtorEq, parseCommand, hok]
            · simp only [scanB]
              exact hscan d
          · right
            refine ⟨?_, fun d => ?_⟩
            · simp only [parseBodyF, reduceIte, reduceCtorEq, parseCommand, herr]
            · simp only [scanB]
              exact hscan d
        case decByte =>
          have hbody := ih.1 rest (by simp at hlen ⊢; omega)
          rcases hbody with ⟨ns, q, hok, hqlen, hscan⟩ | ⟨herr, hscan⟩
          · left
            refine ⟨Node.decByte 1 :: ns, q, ?_, by simp only [List.length_cons]; omega, fun d => ?_⟩
            · simp only [parseBodyF, reduceIte, reduceCtorEq, parseCommand, hok]
            · simp only [scanB]
              exact hscan d
          · right
            refine ⟨?_, fun d => ?_⟩
            · simp only [parseBodyF, reduceIte, reduceCtorEq, parseCommand, herr]
            · simp only [scanB]
              exact hscan d
        case output =>
          have hbody := ih.1 rest (by simp at hlen ⊢; omega)
          rcases hbody with ⟨ns, q, hok, hqlen, hscan⟩ | ⟨herr, hscan⟩
          · left
            refine ⟨Node.output :: ns, q, ?_, by simp only [List.length_cons]; omega, fun d => ?_⟩
            · simp only [parseBodyF, reduceIte, reduceCtorEq, parseCommand, hok]
            · simp only [scanB]
              exact hscan d
          · right
            refine ⟨?_, fun d => ?_⟩
            · simp only [parseBodyF, reduceIte, reduceCtorEq, parseCommand, herr]
            · simp only [scanB]
              exact hscan d
        case input =>
          have hbody := ih.1 rest (by simp at hlen ⊢; omega)
          rcases hbody with ⟨ns, q, hok, hqlen, hscan⟩ | ⟨herr, hscan⟩
          · left
            refine ⟨Node.input :: ns, q, ?_, by simp only [List.length_cons]; omega, fun d => ?_⟩
            · simp only [parseBodyF, reduceIte, reduceCtorEq, parseCommand, hok]
            · simp only [scanB]
              exact hscan d
          · right
            refine ⟨?_, fun d => ?_⟩
            · simp only [parseBodyF, reduceIte, reduceCtorEq, parseCommand, herr]
            · simp only [scanB]
              exact hscan d
    · -- parse_loop itself
      intro rest hlen
      have hbody := ih.1 rest (by omega)
      rcases hbody with ⟨ns, q, hok, hqlen, hscan⟩ | ⟨herr, hscan⟩
      · left
        refine ⟨Node.loop ns, q, ?_, by omega, fun d => ?_⟩
        · simp only [parseLoopF, reduceIte, reduceCtorEq, hok]
        · simp only [scanB]
          exact hscan d
      · right
        refine ⟨?_, fun d => ?_⟩
        · simp only [parseLoopF, reduceIte, reduceCtorEq, herr]
        · simp only [scanB]
          exact hscan d



theorem parser_scan_prog : ∀ f : Nat, ∀ ts : List Token, 2 * ts.length + 1 ≤ f →
    (parseProgramF f ts).map (fun _ => ()) = scanB ts 0 := by
  intro f
  induction f with
  | zero =>
    intro ts hlen
    omega
  | succ f ih =>
    intro ts hlen
    match ts with
    | [] =>
      rw [parseProgramF, scanB]
      rfl
    | t :: rest =>
      cases t
      case loopStart =>
        have hloop := (parser_scan_body_loop f).2 rest (by simp at hlen ⊢; omega)
        rcases hloop with ⟨n, q, hok, hqlen, hscan⟩ | ⟨herr, hscan⟩
        · rw [show scanB (Token.loopStart :: rest) 0 = scanB q 0 from hscan 0]
          rw [← ih q (by simp at hlen ⊢; omega)]
          simp only [parseProgramF, reduceIte, hok]
          cases parseProgramF f q <;> rfl
        · rw [hscan 0]
          simp only [parseProgramF, reduceIte, herr]
          rfl
      case loopEnd =>
        simp only [parseProgramF, reduceIte, reduceCtorEq, parseCommand, scanB]
        rfl
      case incPtr =>
        simp only [parseProgramF, reduceIte, reduceCtorEq, parseCommand, scanB]
        rw [← ih rest (by simp at hlen ⊢; omega)]
        cases parseProgramF f rest <;> rfl
      case decPtr =>
        simp only [parseProgramF, reduceIte, reduceCtorEq, parseCommand, scanB]
        rw [← ih rest (by simp at hlen ⊢; omega)]
        cases parseProgramF f rest <;> rfl
      case incByte =>
        simp only [parseProgramF, reduceIte, reduceCtorEq, parseCommand, scanB]
        rw [← ih rest (by simp at hlen ⊢; omega)]
        cases parseProgramF f rest <;> rfl
      case decByte =>
        simp only [parseProgramF, reduceIte, reduceCtorEq, parseCommand, scanB]
        rw [← ih rest (by simp at hlen ⊢; omega)]
        cases parseProgramF f rest <;> rfl
      case output =>
        simp only [parseProgramF, reduceIte, reduceCtorEq, parseCommand, scanB]
        rw [← ih rest (by simp at hlen ⊢; omega)]
        cases parseProgramF f rest <;> rfl
      case input =>
        simp only [parseProgramF, reduceIte, reduceCtorEq, parseCommand, scanB]
        rw [← ih rest (by simp at hlen ⊢; omega)]
        cases parseProgramF f rest <;> rfl

theorem parse_scan (ts : List Token) : (parse ts).map (fun _ => ()) = scanB ts 0 := by
  rw [parse]
  rw [← parser_scan_prog (2 * ts.length + 1) ts (le_refl _)]
  cases parseProgramF (2 * ts.length + 1) ts <;> rfl



theorem opensCount_cons (t : Token) (r : List Token) :
    opensCount (t :: r) = opensCount r + (if t = Token.loopStart then 1 else 0) := by
  cases t <;> simp [opensCount]

theorem closesCount_cons (t : Token) (r : List Token) :
    closesCount (t :: r) = closesCount r + (if t = Token.loopEnd then 1 else 0) := by
  cases t <;> simp [closesCount]

theorem opensCount_cons_start (r : List Token) :
    opensCount (Token.loopStart :: r) = opensCount r + 1 := by
  simp [opensCount]

theorem opensCount_cons_ne {t : Token} (h : t ≠ Token.loopStart) (r : List Token) :
    opensCount (t :: r) = opensCount r := by
  cases t <;> simp_all [opensCount]

theorem closesCount_cons_end (r : List Token) :
    closesCount (Token.loopEnd :: r) = closesCount r + 1 := by
  simp [closesCount]

theorem closesCount_cons_ne {t : Token} (h : t ≠ Token.loopEnd) (r : List Token) :
    closesCount (t :: r) = closesCount r := by
  cases t <;> simp_all [closesCount]

theorem prefixOK_nil (d : Nat) : prefixOK [] d := by
  intro i
  simp [closesCount]

theorem prefixOK_cons_start {rest : List Token} {d : Nat} :
    prefixOK (Token.loopStart :: rest) d ↔ prefixOK rest (d + 1) := by
  constructor
  · intro h i
    have h2 := h (i + 1)
    rw [List.take_succ_cons, opensCount_cons, closesCount_cons] at h2
    simp at h2
    omega
  · intro h i
    match i with
    | 0 => simp [closesCount]
    | i + 1 =>
      have h2 := h i
      rw [List.take_succ_cons, opensCount_cons, closesCount_cons]
      simp
      omega

theorem prefixOK_cons_end_succ {rest : List Token} {d : Nat} :
    prefixOK (Token.loopEnd :: rest) (d + 1) ↔ prefixOK rest d := by
  constructor
  · intro h i
    have h2 := h (i + 1)
    rw [List.take_succ_cons, opensCount_cons, closesCount_cons] at h2
    simp at h2
    omega
  · intro h i
    match i with
    | 0 => simp [closesCount]
    | i + 1 =>
      have h2 := h i
      rw [List.take_succ_cons, opensCount_cons, closesCount_cons]
      simp
      omega

theorem prefixOK_cons_end_zero {rest : List Token} :
    ¬ prefixOK (Token.loopEnd :: rest) 0 := by
  intro h
  have h2 := h 1
  rw [List.take_succ_cons, List.take_zero, opensCount_cons, closesCount_cons] at h2
  simp [opensCount, closesCount] at h2

theorem prefixOK_cons_other {t : Token} {rest : List Token} {d : Nat}
    (h1 : t ≠ Token.loopStart) (h2 : t ≠ Token.loopEnd) :
    prefixOK (t :: rest) d ↔ prefixOK rest d := by
  constructor
  · intro h i
    have h3 := h (i + 1)
    rw [List.take_succ_cons, opensCount_cons, closesCount_cons] at h3
    simp [h1, h2] at h3
    omega
  · intro h i
    match i with
    | 0 => simp [closesCount]
    | i + 1 =>
      have h3 := h i
      rw [List.take_succ_cons, opensCount_cons, closesCount_cons]
      simp [h1, h2]
      omega

theorem scanB_outcomes (ts : List Token) : ∀ d, scanB ts d = .ok () ∨
    scanB ts d = .error "unexpected end of file" ∨
    scanB ts d = .error "unexpected token LoopEndToken" := by
  induction ts with
  | nil =>
    intro d
    rw [scanB]
    by_cases hd : d = 0
    · left
      rw [if_pos hd]
    · right
      left
      rw [if_neg hd]
  | cons t rest ih =>
    intro d
    cases t
    case loopStart => simpa only [scanB] using ih (d + 1)
    case loopEnd =>
      match d with
      | 0 =>
        right
        right
        simp only [scanB]
      | d + 1 => simpa only [scanB] using ih d
    all_goals simpa only [scanB] using ih d

theorem scanB_ok_iff : ∀ (ts : List Token) (d : Nat),
    scanB ts d = .ok () ↔ prefixOK ts d ∧ d + opensCount ts = closesCount ts := by
  intro ts
  induction ts with
  | nil =>
    intro d
    rw [scanB]
    by_cases hd : d = 0
    · subst hd
      simp only [if_pos rfl]
      simp [prefixOK_nil, opensCount, closesCount]
    · rw [if_neg hd]
      simp only [opensCount, closesCount]
      constructor
      · intro h
        cases h
      · rintro ⟨-, h2⟩
        omega
  | cons t rest ih =>
    intro d
    cases t
    case loopStart =>
      rw [show scanB (Token.loopStart :: rest) d = scanB rest (d + 1) from by
        simp only [scanB]]
      rw [ih (d + 1), prefixOK_cons_start, opensCount_cons_start,
        closesCount_cons_ne (by decide)]
      constructor <;> (rintro ⟨h1, h2⟩; exact ⟨h1, by omega⟩)
    case loopEnd =>
      match d with
      | 0 =>
        rw [show scanB (Token.loopEnd :: rest) 0
            = Except.error "unexpected token LoopEndToken" from by simp only [scanB]]
        constructor
        · intro h
          cases h
        · rintro ⟨h1, -⟩
          exact absurd h1 prefixOK_cons_end_zero
      | d + 1 =>
        rw [show scanB (Token.loopEnd :: rest) (d + 1) = scanB rest d from by
          simp only [scanB]]
        rw [ih d, prefixOK_cons_end_succ, opensCount_cons_ne (by decide),
          closesCount_cons_end]
        constructor <;> (rintro ⟨h1, h2⟩; exact ⟨h1, by omega⟩)
    all_goals (
      simp only [scanB]
      rw [ih d, prefixOK_cons_other (by decide) (by decide),
        opensCount_cons_ne (by decide), closesCount_cons_ne (by decide)])

theorem scanB_eof_iff : ∀ (ts : List Token) (d : Nat),
    scanB ts d = .error "unexpected end of file" ↔
      prefixOK ts d ∧ closesCount ts < d + opensCount ts := by
  intro ts
  induction ts with
  | nil =>
    intro d
    rw [scanB]
    by_cases hd : d = 0
    · subst hd
      simp only [if_pos rfl]
      simp only [opensCount, closesCount]
      constructor
      · intro h
        cases h
      · rintro ⟨-, h2⟩
        omega
    · rw [if_neg hd]
      simp only [opensCount, closesCount]
      constructor
      · intro _
        exact ⟨prefixOK_nil d, by omega⟩
      · intro _
        trivial
  | cons t rest ih =>
    intro d
    cases t
    case loopStart =>
      rw [show scanB (Token.loopStart :: rest) d = scanB rest (d + 1) from by
        simp only [scanB]]
      rw [ih (d + 1), prefixOK_cons_start, opensCount_cons_start,
        closesCount_cons_ne (by decide)]
      constructor <;> (rintro ⟨h1, h2⟩; exact ⟨h1, by omega⟩)
    case loopEnd =>
      match d with
      | 0 =>
        rw [show scanB (Token.loopEnd :: rest) 0
            = Except.error "unexpected token LoopEndToken" from by simp only [scanB]]
        constructor
        · intro h
          injection h with h2
          exact absurd h2 (by decide)
        · rintro ⟨h1, -⟩
          exact absurd h1 prefixOK_cons_end_zero
      | d + 1 =>
        rw [show scanB (Token.loopEnd :: rest) (d + 1) = scanB rest d from by
          simp only [scanB]]
        rw [ih d, prefixOK_cons_end_succ, opensCount_cons_ne (by decide),
          closesCount_cons_end]
        constructor <;> (rintro ⟨h1, h2⟩; exact ⟨h1, by omega⟩)
    all_goals (
      simp only [scanB]
      rw [ih d, prefixOK_cons_other (by decide) (by decide),
        opensCount_cons_ne (by decide), closesCount_cons_ne (by decide)])

theorem scanB_tok_iff (ts : List Token) (d : Nat) :
    scanB ts d = .error "unexpected token LoopEndToken" ↔ ¬ prefixOK ts d := by
  constructor
  · intro h hpre
    have hle : closesCount ts ≤ d + opensCount ts := by
      have h2 := hpre ts.length
      rwa [List.take_length] at h2
    rcases eq_or_lt_of_le hle with he | hl
    · have h3 := (scanB_ok_iff ts d).mpr ⟨hpre, he.symm⟩
      rw [h3] at h
      cases h
    · have h3 := (scanB_eof_iff ts d).mpr ⟨hpre, hl⟩
      rw [h3] at h
      injection h with h4
      exact absurd h4 (by decide)
  · intro hnp
    rcases scanB_outcomes ts d with ho | he | ht
    · exact absurd ((scanB_ok_iff ts d).mp ho).1 hnp
    · exact absurd ((scanB_eof_iff ts d).mp he).1 hnp
    · exact ht



/-- C7: parsing succeeds exactly on bracket-balanced token sequences; it
fails with `unexpected end of file` exactly when no prefix over-closes but
some `[` is never closed (end of input inside a loop body), and with
`unexpected token LoopEndToken` exactly when some `]` appears without a
matching open `[` (a prefix with more `]` than `[`). -/
theorem parse_error_classification (ts : List Token) :
    ((∃ t, parse ts = .ok t) ↔ prefixOK ts 0 ∧ opensCount ts = closesCount ts)
    ∧ (parse ts = .error "unexpected end of file" ↔
        prefixOK ts 0 ∧ closesCount ts < opensCount ts)
    ∧ (parse ts = .error "unexpected token LoopEndToken" ↔
        ∃ i, opensCount (ts.take i) < closesCount (ts.take i)) := by
  have hscan := parse_scan ts
  refine ⟨?_, ?_, ?_⟩
  · constructor
    · rintro ⟨t, ht⟩
      rw [ht] at hscan
      have h2 := (scanB_ok_iff ts 0).mp hscan.symm
      exact ⟨h2.1, by omega⟩
    · rintro ⟨h1, h2⟩
      have h3 : scanB ts 0 = .ok () := (scanB_ok_iff ts 0).mpr ⟨h1, by omega⟩
      rw [h3] at hscan
      match hp : parse ts with
      | .ok t => exact ⟨t, rfl⟩
      | .error e =>
        rw [hp] at hscan
        cases hscan
  · constructor
    · intro ht
      rw [ht] at hscan
      have h2 := (scanB_eof_iff ts 0).mp hscan.symm
      exact ⟨h2.1, by omega⟩
    · rintro ⟨h1, h2⟩
      have h3 : scanB ts 0 = .error "unexpected end of file" :=
        (scanB_eof_iff ts 0).mpr ⟨h1, by omega⟩
      rw [h3] at hscan
      match hp : parse ts with
      | .ok t =>
        rw [hp] at hscan
        cases hscan
      | .error e =>
        rw [hp] at hscan
        injection hscan with he
        rw [he]
  · constructor
    · intro ht
      rw [ht] at hscan
      have h2 := (scanB_tok_iff ts 0).mp hscan.symm
      rw [prefixOK] at h2
      push_neg at h2
      obtain ⟨i, hi⟩ := h2
      exact ⟨i, by omega⟩
    · rintro ⟨i, hi⟩
      have hnp : ¬ prefixOK ts 0 := by
        intro hp
        have := hp i
        omega
      have h3 : scanB ts 0 = .error "unexpected token LoopEndToken" :=
        (scanB_tok_iff ts 0).mpr hnp
      rw [h3] at hscan
      match hp : parse ts with
      | .ok t =>
        rw [hp] at hscan
        cases hscan
      | .error e =>
        rw [hp] at hscan
        injection hscan with he
        rw [he]



theorem parser_counts_one : ∀ f : Nat,
    (∀ ts ns rest, parseBodyF f ts = .ok (ns, rest) → countsOneL ns = true)
    ∧ (∀ ts n rest, parseLoopF f ts = .ok (n, rest) → countsOne n = true) := by
  intro f
  induction f with
  | zero =>
    constructor
    · intro ts ns rest h
      rw [parseBodyF] at h
      cases h
    · intro ts n rest h
      rw [parseLoopF] at h
      cases h
  | succ f ih =>
    constructor
    · intro ts ns rest h
      match ts with
      | [] =>
        rw [parseBodyF] at h
        cases h
      | t :: r =>
        cases t
        case loopEnd =>
          simp only [parseBodyF, reduceIte] at h
          injection h with h2
          injection h2 with h3 h4
          rw [← h3, countsOneL]
        case loopStart =>
          match hl : parseLoopF f (Token.loopStart :: r) with
          | .error e =>
            simp only [parseBodyF, reduceIte, reduceCtorEq, hl] at h
          | .ok (n, rest₁) =>
            match hb : parseBodyF f rest₁ with
            | .error e =>
              simp only [parseBodyF, reduceIte, reduceCtorEq, hl, hb] at h
            | .ok (ns₂, rest₂) =>
              simp only [parseBodyF, reduceIte, reduceCtorEq, hl, hb] at h
              injection h with h2
              injection h2 with h3 h4
              rw [← h3, countsOneL, Bool.and_eq_true]
              exact ⟨ih.2 _ _ _ hl, ih.1 _ _ _ hb⟩
        all_goals (
          match hb : parseBodyF f r with
          | .error e =>
            simp only [parseBodyF, reduceIte, reduceCtorEq, parseCommand, hb] at h
          | .ok (ns₂, rest₂) =>
            simp only [parseBodyF, reduceIte, reduceCtorEq, parseCommand, hb] at h
            injection h with h2
            injection h2 with h3 h4
            rw [← h3, countsOneL, Bool.and_eq_true]
            exact ⟨by simp [countsOne], ih.1 _ _ _ hb⟩)
    · intro ts n rest h
      match ts with
      | [] =>
        rw [parseLoopF] at h
        cases h
      | t :: r =>
        cases t
        case loopStart =>
          match hb : parseBodyF f r with
          | .error e =>
            simp only [parseLoopF, reduceIte, reduceCtorEq, hb] at h
          | .ok (ns, rest₁) =>
            match rest₁ with
            | [] =>
              simp only [parseLoopF, reduceIte, reduceCtorEq, hb] at h
            | u :: rest₂ =>
              by_cases hu : u = Token.loopEnd
              · subst hu
                simp only [parseLoopF, reduceIte, hb] at h
                injection h with h2
                injection h2 with h3 h4
                rw [← h3, countsOne]
                exact ih.1 _ _ _ hb
              · simp only [parseLoopF, reduceIte, reduceCtorEq, hb, if_neg hu] at h
        all_goals simp only [parseLoopF, reduceIte, reduceCtorEq] at h

theorem parseProgramF_counts_one : ∀ f : Nat, ∀ ts ns,
    parseProgramF f ts = .ok ns → countsOneL ns = true := by
  intro f
  induction f with
  | zero =>
    intro ts ns h
    rw [parseProgramF] at h
    cases h
  | succ f ih =>
    intro ts ns h
    match ts with
    | [] =>
      rw [parseProgramF] at h
      injection h with h2
      rw [← h2, countsOneL]
    | t :: r =>
      cases t
      case loopStart =>
        match hl : parseLoopF f (Token.loopStart :: r) with
        | .error e =>
          simp only [parseProgramF, reduceIte, reduceCtorEq, hl] at h
        | .ok (n, rest₁) =>
          match hp : parseProgramF f rest₁ with
          | .error e =>
            simp only [parseProgramF, reduceIte, reduceCtorEq, hl, hp, Except.map] at h
          | .ok ns₂ =>
            simp only [parseProgramF, reduceIte, hl, hp, Except.map] at h
            injection h with h2
            rw [← h2, countsOneL, Bool.and_eq_true]
            exact ⟨(parser_counts_one f).2 _ _ _ hl, ih _ _ hp⟩
      case loopEnd =>
        simp only [parseProgramF, reduceIte, reduceCtorEq, parseCommand] at h
      all_goals (
        match hp : parseProgramF f r with
        | .error e =>
          simp only [parseProgramF, reduceIte, reduceCtorEq, parseCommand, hp, Except.map] at h
        | .ok ns₂ =>
          simp only [parseProgramF, reduceIte, reduceCtorEq, parseCommand, hp, Except.map] at h
          injection h with h2
          rw [← h2, countsOneL, Bool.and_eq_true]
          exact ⟨by simp [countsOne], ih _ _ hp⟩)

/-- C10: every tree the parser returns has all mergeable counts exactly 1 —
repetition counts above 1 are introduced only by the optimizer. -/
theorem parse_counts_one (ts : List Token) (t : Node) (h : parse ts = .ok t) :
    countsOne t = true := by
  rw [parse] at h
  match hp : parseProgramF (2 * ts.length + 1) ts with
  | .error e =>
    rw [hp] at h
    cases h
  | .ok ns =>
    rw [hp] at h
    simp only [Except.map] at h
    injection h with h2
    rw [← h2, countsOne]
    exact parseProgramF_counts_one _ _ _ hp

/-- C10 witness at the token sequence of `+[>]`. -/
theorem parse_counts_one_witness :
    parse [Token.incByte, Token.loopStart, Token.incPtr, Token.loopEnd]
      = .ok (Node.program [Node.incByte 1, Node.loop [Node.incPtr 1]]) ∧
    countsOne (Node.program [Node.incByte 1, Node.loop [Node.incPtr 1]]) = true := by
  have h : parse [Token.incByte, Token.loopStart, Token.incPtr, Token.loopEnd]
      = .ok (Node.program [Node.incByte 1, Node.loop [Node.incPtr 1]]) := by
    simp [parse, parseProgramF, parseLoopF, parseBodyF, parseCommand, Except.map]
  exact ⟨h, parse_counts_one _ _ h⟩


end BFC
